import Mathlib

/-!
# Verification of the Group1 OS Process Scheduler Simulator

Shallow embedding of the repository's five scheduler implementations:

* `fcfs_scheduling`        — src/fcfs_scheduling.py (dict-based FCFS)
* `priority_scheduling`    — src/priority_scheduling.py (dict-based, non-preemptive)
* `sjf_non_preemptive`, `sjf_preemptive` — src/sjf.py (object-based)
* `round_robin`            — src/rr.py (object-based, FIFO queue of indices)
* `logicPriority`, `logicRR` — the `logic_priority` / `logic_rr` methods of
  `SchedulerApp` in src/main.py

Conventions of the embedding:

* Python integers are `Int`; Python float division in the metric math is
  modelled as exact division in `ℚ`.
* Python `min(xs, key=k)` returns the first element attaining the minimal
  key under a left-to-right scan; `pyMin` below mirrors that exactly.
* Python's stable `list.sort` / `sorted` by a single integer key is
  modelled by `List.insertionSort` on `≤` of that key, which is stable and
  hence produces the identical list.
* In-place mutation of process objects is modelled by threading the list
  of process records through the loop; a FIFO queue of object references
  is modelled as a queue of indices into that list.
* Loops whose guard is a completion count are written with an explicit
  fuel argument and return `Option`: `none` means the fuel ran out before
  the Python loop would have exited.
-/

/-- Python `min(xs, key=key)`: the first element of `xs` whose key is
minimal, `none` on the empty list (where Python raises `ValueError`). -/
def pyMin {α : Type} (key : α → Int) : List α → Option α
  | [] => none
  | a :: rest =>
    match pyMin key rest with
    | none => some a
    | some b => if key b < key a then some b else some a

/-- Python `round(x, 2)` idealised over `ℚ`: round half to even at two
decimal places (the float-representation artifacts of CPython's `round`
are outside the scope of this model). -/
def pyRound2 (x : ℚ) : ℚ :=
  let y := x * 100
  let f : Int := ⌊y⌋
  let r := y - f
  (if r < 1/2 then (f : ℚ)
   else if 1/2 < r then (f + 1 : ℤ)
   else if f % 2 = 0 then (f : ℚ) else (f + 1 : ℤ)) / 100

/-! ## FCFS — src/fcfs_scheduling.py -/

/-- Input process dict of `fcfs_scheduling`: keys `pid`, `arrival_time`,
`burst_time`. -/
structure FProcIn where
  pid : String
  arrival_time : Int
  burst_time : Int
deriving Repr, DecidableEq

/-- A process dict of `fcfs_scheduling` after the scheduling metrics have
been stored into it (steps 5–6 of the source). -/
structure FProc where
  pid : String
  arrival_time : Int
  burst_time : Int
  start_time : Int
  completion_time : Int
  waiting_time : Int
  turnaround_time : Int
deriving Repr, DecidableEq

/-- Result dict of `fcfs_scheduling`. -/
structure FcfsResult where
  processes : List FProc
  gantt_chart : List (String × Int × Int)
  avg_waiting_time : ℚ
  avg_turnaround_time : ℚ
  cpu_utilization : ℚ
deriving Repr, DecidableEq

/-- Steps 3–8 of `fcfs_scheduling`: walk the arrival-sorted list, jumping
the clock to `arrival_time` when the CPU would idle, and record the
metrics of each process.  Returns the final `current_time` together with
the mutated process dicts (in sorted order). -/
def fcfsLoop : Int → List FProcIn → Int × List FProc
  | t, [] => (t, [])
  | t, p :: rest =>
    let t0 := if t < p.arrival_time then p.arrival_time else t
    let ct := t0 + p.burst_time
    let fp : FProc :=
      { pid := p.pid, arrival_time := p.arrival_time, burst_time := p.burst_time
        start_time := t0, completion_time := ct
        waiting_time := t0 - p.arrival_time, turnaround_time := ct - p.arrival_time }
    ((fcfsLoop ct rest).1, fp :: (fcfsLoop ct rest).2)

/-- `fcfs_scheduling(processes)` from src/fcfs_scheduling.py.  The Gantt
chart collects `(pid, start_time, completion_time)` in loop order, which
coincides with reading those fields off the processed list. -/
def fcfs_scheduling (processes : List FProcIn) : FcfsResult :=
  let sorted_processes :=
    List.insertionSort (fun a b : FProcIn => a.arrival_time ≤ b.arrival_time) processes
  let current_time := (fcfsLoop 0 sorted_processes).1
  let procs := (fcfsLoop 0 sorted_processes).2
  let gantt_chart := procs.map (fun p => (p.pid, p.start_time, p.completion_time))
  let total_waiting_time : Int := (procs.map (·.waiting_time)).sum
  let total_turnaround_time : Int := (procs.map (·.turnaround_time)).sum
  let num_processes := procs.length
  let avg_waiting_time : ℚ :=
    if 0 < num_processes then (total_waiting_time : ℚ) / num_processes else 0
  let avg_turnaround_time : ℚ :=
    if 0 < num_processes then (total_turnaround_time : ℚ) / num_processes else 0
  let total_burst_time : Int := (procs.map (·.burst_time)).sum
  let total_time : Int :=
    match procs with
    | [] => 0
    | p0 :: _ => current_time - p0.arrival_time
  let cpu_utilization : ℚ :=
    if 0 < total_time then ((total_burst_time : ℚ) / (total_time : ℚ)) * 100 else 0
  { processes := procs, gantt_chart := gantt_chart
    avg_waiting_time := avg_waiting_time
    avg_turnaround_time := avg_turnaround_time
    cpu_utilization := cpu_utilization }

/-- The three default processes used throughout the repository's examples:
`P1(arrival=0, burst=8)`, `P2(arrival=1, burst=4)`, `P3(arrival=2, burst=2)`. -/
def fcfsExample1 : List FProcIn :=
  [ { pid := "P1", arrival_time := 0, burst_time := 8 }
  , { pid := "P2", arrival_time := 1, burst_time := 4 }
  , { pid := "P3", arrival_time := 2, burst_time := 2 } ]

/-- C2: on `P1(0,8), P2(1,4), P3(2,2)` the FCFS scheduler returns Gantt
`[(P1,0,8),(P2,8,12),(P3,12,14)]`, waiting times `[0,7,10]`, turnaround
times `[8,11,12]`, average waiting `17/3`, average turnaround `31/3`, and
CPU utilization `100`. -/
theorem C2_fcfs_concrete_scenario :
    (fcfs_scheduling fcfsExample1).gantt_chart =
      [("P1", 0, 8), ("P2", 8, 12), ("P3", 12, 14)] ∧
    (fcfs_scheduling fcfsExample1).processes.map (·.waiting_time) = [0, 7, 10] ∧
    (fcfs_scheduling fcfsExample1).processes.map (·.turnaround_time) = [8, 11, 12] ∧
    (fcfs_scheduling fcfsExample1).avg_waiting_time = 17/3 ∧
    (fcfs_scheduling fcfsExample1).avg_turnaround_time = 31/3 ∧
    (fcfs_scheduling fcfsExample1).cpu_utilization = 100 := by
  refine ⟨by decide, by decide, by decide, ?_, ?_, ?_⟩ <;>
    norm_num [fcfs_scheduling, fcfsExample1, fcfsLoop,
      List.insertionSort, List.orderedInsert]

/-! ## Priority — src/priority_scheduling.py -/

/-- Input process dict of `priority_scheduling`: keys `pid`,
`arrival_time`, `burst_time`, `priority`. -/
structure PProcIn where
  pid : String
  arrival_time : Int
  burst_time : Int
  priority : Int
deriving Repr, DecidableEq

/-- Result dict appended to `completed_processes` in step 11 of
`priority_scheduling`. -/
structure PRec where
  pid : String
  arrival_time : Int
  burst_time : Int
  priority : Int
  start_time : Int
  completion_time : Int
  waiting_time : Int
  turnaround_time : Int
deriving Repr, DecidableEq

/-- Return dict of `priority_scheduling`. -/
structure PriorityResult where
  results : List PRec
  gantt_chart : List (String × Int × Int)
  avg_waiting_time : ℚ
  avg_turnaround_time : ℚ
  cpu_utilization : ℚ
deriving Repr, DecidableEq

/-- Steps 4–12 of `priority_scheduling` (fuel-driven).  The Python guard
`p not in completed_processes` compares a four-key input dict against the
eight-key result dicts stored in `completed_processes`; dicts with
different key sets are never equal in Python, so the test is always true
and filters nothing — the embedding reproduces that faithfully by not
filtering on membership.  The idle branch likewise takes the minimum
arrival over all processes. -/
def priorityLoop (processes : List PProcIn) :
    Nat → Int → List PRec → Option (List PRec)
  | 0, _, completed =>
    if completed.length < processes.length then none else some completed
  | fuel + 1, current_time, completed =>
    if completed.length < processes.length then
      let available := processes.filter (fun p => p.arrival_time ≤ current_time)
      match pyMin (fun p : PProcIn => p.priority) available with
      | none =>
        match pyMin (fun x : Int => x) (processes.map (·.arrival_time)) with
        | none => none
        | some next_arrival_time => priorityLoop processes fuel next_arrival_time completed
      | some sel =>
        let start_time := current_time
        let completion_time := start_time + sel.burst_time
        let r : PRec :=
          { pid := sel.pid, arrival_time := sel.arrival_time
            burst_time := sel.burst_time, priority := sel.priority
            start_time := start_time, completion_time := completion_time
            waiting_time := start_time - sel.arrival_time
            turnaround_time := completion_time - sel.arrival_time }
        priorityLoop processes fuel completion_time (completed ++ [r])
    else some completed

/-- `priority_scheduling(processes)` from src/priority_scheduling.py.  The
loop appends one result per iteration and at most one idle jump separates
two selections, so `2·n + 2` fuel always suffices; `none` would mean the
fuel ran out.  The Gantt chart repeats the `(pid, start, completion)`
fields of the results in the same order, so it is read off the completed
list. -/
def priority_scheduling (processes : List PProcIn) : Option PriorityResult :=
  if processes.length = 0 then
    some { results := [], gantt_chart := [], avg_waiting_time := 0
           avg_turnaround_time := 0, cpu_utilization := 0 }
  else
    (priorityLoop processes (2 * processes.length + 2) 0 []).map fun completed =>
      let gantt_chart := completed.map (fun r => (r.pid, r.start_time, r.completion_time))
      let total_waiting : Int := (completed.map (·.waiting_time)).sum
      let total_turnaround : Int := (completed.map (·.turnaround_time)).sum
      let avg_waiting : ℚ := (total_waiting : ℚ) / (completed.length : ℚ)
      let avg_turnaround : ℚ := (total_turnaround : ℚ) / (completed.length : ℚ)
      let total_busy : Int := (completed.map (·.burst_time)).sum
      let total_time_needed : Int := ((completed.getLast?).map (·.completion_time)).getD 0
      let cpu : ℚ :=
        if 0 < total_time_needed then ((total_busy : ℚ) / (total_time_needed : ℚ)) * 100 else 0
      { results := completed, gantt_chart := gantt_chart
        avg_waiting_time := pyRound2 avg_waiting
        avg_turnaround_time := pyRound2 avg_turnaround
        cpu_utilization := pyRound2 cpu }

/-- The four example processes at the bottom of src/priority_scheduling.py. -/
def priorityExample : List PProcIn :=
  [ { pid := "P1", arrival_time := 0, burst_time := 5, priority := 2 }
  , { pid := "P2", arrival_time := 1, burst_time := 3, priority := 1 }
  , { pid := "P3", arrival_time := 2, burst_time := 4, priority := 3 }
  , { pid := "P4", arrival_time := 3, burst_time := 2, priority := 2 } ]

/-- C8: on its own example input, `priority_scheduling`'s loop terminates
but schedules `P2` three times and never gives `P3` or `P4` a completion
time: the `p not in completed_processes` test never filters completed
processes out, so the minimal-priority arrived process is selected again
and again until the completion counter reaches `n`. -/
theorem C8_priority_never_completes_P3_P4 :
    (priority_scheduling priorityExample).map (fun r => r.results.map (·.pid)) =
      some ["P1", "P2", "P2", "P2"] := by decide

/-- Two valid processes on which `priority_scheduling` duplicates work. -/
def c6Input : List PProcIn :=
  [ { pid := "A", arrival_time := 0, burst_time := 5, priority := 1 }
  , { pid := "B", arrival_time := 1, burst_time := 3, priority := 2 } ]

/-- C6: for the valid input `A(arrival 0, burst 5, priority 1),
B(arrival 1, burst 3, priority 2)` the Priority policy emits the segments
`(A,0,5)` and `(A,5,10)` — total duration 10 — while the bursts sum to 8:
work is duplicated (`A` runs twice) and lost (`B` never runs), refuting
`Σ segment duration = Σ burst_time` for the Priority policy. -/
theorem C6_priority_segment_sum_mismatch :
    (priority_scheduling c6Input).map (·.gantt_chart) =
      some [("A", 0, 5), ("A", 5, 10)] ∧
    (priority_scheduling c6Input).map
      (fun r => (r.gantt_chart.map (fun s => s.2.2 - s.2.1)).sum) = some 10 ∧
    (c6Input.map (·.burst_time)).sum = 8 := by
  refine ⟨by decide, by decide, by decide⟩

/-- A single process arriving at 5: `priority_scheduling` divides by the
final completion time measured from 0, not from the earliest arrival. -/
def c5Input : List PProcIn :=
  [ { pid := "P1", arrival_time := 5, burst_time := 5, priority := 1 } ]

/-- C5 counterexample: for `P1(arrival 5, burst 5)` the claimed formula
gives `100 × 5 / (10 − 5) = 100`, but `priority_scheduling` returns CPU
utilization `50` because it divides by the last completion time `10`
measured from 0 rather than by `max completion − min arrival`. -/
theorem C5_counterexample_priority_utilization :
    (priority_scheduling c5Input).map (·.cpu_utilization) = some 50 ∧
    100 * ((c5Input.map (·.burst_time)).sum : ℚ) / ((10 : ℚ) - 5) = 100 ∧
    (50 : ℚ) ≠ 100 := by
  have h : priorityLoop c5Input 4 0 [] =
      some [{ pid := "P1", arrival_time := 5, burst_time := 5, priority := 1
              start_time := 5, completion_time := 10
              waiting_time := 0, turnaround_time := 5 }] := by decide
  refine ⟨?_, by norm_num [c5Input], by norm_num⟩
  have h4 : 2 * c5Input.length + 2 = 4 := by decide
  unfold priority_scheduling
  rw [if_neg (by decide : ¬ c5Input.length = 0), h4, h]
  simp only [Option.map_some']
  norm_num [pyRound2]

/-! ## The `Process` class and scheduling methods of src/main.py -/

/-- The `Process` class of src/main.py: identity and parameters plus the
metric fields, all initialised to 0, and `remaining_time` initialised to
the burst. -/
structure MProc where
  pid : String
  arrival_time : Int
  burst_time : Int
  priority : Int
  start_time : Int
  completion_time : Int
  waiting_time : Int
  turnaround_time : Int
  remaining_time : Int
deriving Repr, DecidableEq

/-- `Process.__init__` of src/main.py. -/
def mkMProc (pid : String) (arrival burst priority : Int) : MProc :=
  { pid := pid, arrival_time := arrival, burst_time := burst
    priority := priority, start_time := 0, completion_time := 0
    waiting_time := 0, turnaround_time := 0, remaining_time := burst }

/-- Placeholder process used as the (unreachable under the loop
invariants) default of index lookups. -/
def mDflt : MProc := mkMProc "" 0 0 0

/-- The list comprehension
`[i for i in range(n) if procs[i].arrival_time <= t and not comp[i]]`
of `logic_priority` (and `logic_sjf`) in src/main.py. -/
def availIdx (procs : List MProc) (comp : List Bool) (t : Int) : List Nat :=
  (List.range procs.length).filter
    (fun i => decide ((procs.getD i mDflt).arrival_time ≤ t) && !(comp.getD i true))

/-- The `while count < n` loop of `logic_priority` in src/main.py: among
the arrived, uncompleted processes pick the one minimising `priority`
(Python `min` — first minimal under a left-to-right scan over the index
list), run it to completion, record its metrics, and append it to `res`. -/
def logicPriorityLoop :
    Nat → List MProc → List Bool → Int → List MProc → Option (List MProc)
  | 0, procs, _, _, res =>
    if res.length < procs.length then none else some res
  | fuel + 1, procs, comp, t, res =>
    if res.length < procs.length then
      match pyMin (fun i => (procs.getD i mDflt).priority) (availIdx procs comp t) with
      | none => logicPriorityLoop fuel procs comp (t + 1) res
      | some idx =>
        let p := procs.getD idx mDflt
        let p' := { p with start_time := t
                           completion_time := t + p.burst_time
                           turnaround_time := (t + p.burst_time) - p.arrival_time
                           waiting_time := ((t + p.burst_time) - p.arrival_time) - p.burst_time }
        logicPriorityLoop fuel (procs.set idx p') (comp.set idx true)
          p'.completion_time (res ++ [p'])
    else some res

/-- `logic_priority(procs)` of src/main.py (fuel-driven).  The input list
is not sorted; `res` is returned in completion order. -/
def logicPriority (fuel : Nat) (procs : List MProc) : Option (List MProc) :=
  logicPriorityLoop fuel procs (List.replicate procs.length false) 0 []

/-- Three valid processes: `PX` runs first; at time 3 both `PA` and `PB`
have arrived with the same priority 5, but `PB` arrived earlier while
`PA` sits earlier in the input list. -/
def c4Input : List MProc :=
  [mkMProc "PX" 0 3 0, mkMProc "PA" 2 1 5, mkMProc "PB" 1 1 5]

/-- C4 counterexample: with `PA(arrival 2, priority 5)` listed before
`PB(arrival 1, priority 5)`, `logic_priority` runs `PA` at time 3 and `PB`
only at time 4 — the tie is broken by input-list position, not by the
earlier arrival time of `PB` as the claim states. -/
theorem C4_counterexample_tiebreak_by_position :
    (logicPriority 10 c4Input).map
        (fun res => res.map (fun p => (p.pid, p.arrival_time, p.priority, p.start_time))) =
      some [("PX", 0, 0, 0), ("PA", 2, 5, 3), ("PB", 1, 5, 4)] := by decide

/-- `pyMin` never returns `none` on a non-empty list. -/
theorem pyMin_cons_ne_none {α : Type} (key : α → Int) (x : α) (rest : List α) :
    pyMin key (x :: rest) ≠ none := by
  rw [pyMin]
  split
  · simp
  · split <;> simp

/-- `pyMin` returns the first element attaining the minimal key: every
element before it has a strictly larger key, every element after it a
larger-or-equal one. -/
theorem pyMin_first_minimal {α : Type} (key : α → Int) :
    ∀ (l : List α) (a : α), pyMin key l = some a →
      ∃ pre post, l = pre ++ a :: post ∧
        (∀ b ∈ pre, key a < key b) ∧ (∀ b ∈ post, key a ≤ key b)
  | [], a => by simp [pyMin]
  | x :: rest, a => by
    intro h
    match hrest : pyMin key rest with
    | none =>
      have hnil : rest = [] := by
        cases rest with
        | nil => rfl
        | cons y ys => exact absurd hrest (pyMin_cons_ne_none key y ys)
      subst hnil
      replace h : some x = some a := h
      obtain rfl := Option.some.inj h
      exact ⟨[], [], rfl, by simp, by simp⟩
    | some b =>
      replace h : (if key b < key x then some b else some x) = some a := by
        rw [pyMin, hrest] at h; exact h
      obtain ⟨pre', post', hsplit, hpre', hpost'⟩ := pyMin_first_minimal key rest b hrest
      by_cases hlt : key b < key x
      · rw [if_pos hlt] at h
        obtain rfl := Option.some.inj h
        refine ⟨x :: pre', post', by simp [hsplit], ?_, hpost'⟩
        intro c hc
        rcases List.mem_cons.1 hc with rfl | hc
        · exact hlt
        · exact hpre' c hc
      · rw [if_neg hlt] at h
        obtain rfl := Option.some.inj h
        refine ⟨[], rest, rfl, by simp, ?_⟩
        intro c hc
        have hxb : key x ≤ key b := le_of_not_lt hlt
        rw [hsplit] at hc
        rcases List.mem_append.1 hc with hc | hc
        · exact hxb.trans (le_of_lt (hpre' c hc))
        · rcases List.mem_cons.1 hc with rfl | hc
          · exact hxb
          · exact hxb.trans (hpost' c hc)

/-- `availIdx` is a filter of `List.range`, hence strictly increasing. -/
theorem availIdx_pairwise (procs : List MProc) (comp : List Bool) (t : Int) :
    (availIdx procs comp t).Pairwise (· < ·) :=
  (List.pairwise_lt_range _).filter _

/-- C4 as amended: whenever `logic_priority`'s selection step picks index
`k`, every available process at a smaller input-list position has a
strictly larger priority and every one at a larger position has a
larger-or-equal priority — ties in the minimal priority are broken by
input-list position, never by arrival time. -/
theorem C4_amended_priority_tiebreak_by_input_position
    (procs : List MProc) (comp : List Bool) (t : Int) (k : Nat)
    (h : pyMin (fun i => (procs.getD i mDflt).priority) (availIdx procs comp t) = some k) :
    ∃ pre post, availIdx procs comp t = pre ++ k :: post ∧
      (∀ j ∈ pre, j < k ∧
        (procs.getD k mDflt).priority < (procs.getD j mDflt).priority) ∧
      (∀ j ∈ post, k < j ∧
        (procs.getD k mDflt).priority ≤ (procs.getD j mDflt).priority) := by
  obtain ⟨pre, post, hsplit, hpre, hpost⟩ := pyMin_first_minimal _ _ _ h
  have hpw := availIdx_pairwise procs comp t
  rw [hsplit] at hpw
  refine ⟨pre, post, hsplit, fun j hj => ⟨?_, hpre j hj⟩, fun j hj => ⟨?_, hpost j hj⟩⟩
  · exact (List.pairwise_append.1 hpw).2.2 j hj k (List.mem_cons_self _ _)
  · exact ((List.pairwise_cons.1 (List.pairwise_append.1 hpw).2.1).1 j hj)

/-- Witness for `C4_amended_priority_tiebreak_by_input_position` at the
selection state of `c4Input` at time 3 (indices 1 and 2 available). -/
theorem C4_amended_witness :
    pyMin (fun i => ((c4Input.getD i mDflt)).priority)
        (availIdx c4Input [true, false, false] 3) = some 1 ∧
    (∃ pre post, availIdx c4Input [true, false, false] 3 = pre ++ 1 :: post ∧
      (∀ j ∈ pre, j < 1 ∧
        (c4Input.getD 1 mDflt).priority < (c4Input.getD j mDflt).priority) ∧
      (∀ j ∈ post, 1 < j ∧
        (c4Input.getD 1 mDflt).priority ≤ (c4Input.getD j mDflt).priority)) :=
  ⟨by decide, C4_amended_priority_tiebreak_by_input_position _ _ _ _ (by decide)⟩

/-- Set the visited flag of every index in `idxs` (the in-place
`visited[i] = True` updates of the arrival scans in `logic_rr`). -/
def setVisited (visited : List Bool) (idxs : List Nat) : List Bool :=
  idxs.foldl (fun v i => v.set i true) visited

/-- The arrival scan of `logic_rr` in src/main.py:
`[i for i, p in enumerate(procs) if p.arrival_time <= t and not visited[i]]`,
in index order. -/
def lrArrivals (procs : List MProc) (visited : List Bool) (t : Int) : List Nat :=
  (List.range procs.length).filter
    (fun i => decide ((procs.getD i mDflt).arrival_time ≤ t) && !(visited.getD i true))

/-- The `while count < len(procs)` loop of `logic_rr` in src/main.py.
When the queue is empty the clock advances one unit and the arrival scan
runs; otherwise the head index is dequeued, runs for
`min(remaining_time, q)`, the slice is logged, mid-slice arrivals are
enqueued, and the process is re-enqueued or completed. -/
def logicRRLoop (q : Int) :
    Nat → List MProc → List Bool → List Nat → Int → List MProc →
      List (String × Int × Int) → Option (List MProc × List (String × Int × Int))
  | 0, procs, _, _, _, res, gantt =>
    if res.length < procs.length then none else some (res, gantt)
  | fuel + 1, procs, visited, queue, t, res, gantt =>
    if res.length < procs.length then
      match queue with
      | [] =>
        let t' := t + 1
        let newIdx := lrArrivals procs visited t'
        logicRRLoop q fuel procs (setVisited visited newIdx) newIdx t' res gantt
      | curr :: qrest =>
        let p := procs.getD curr mDflt
        let start_this_turn := t
        let run := min p.remaining_time q
        let t' := t + run
        let p1 := { p with remaining_time := p.remaining_time - run }
        let procs1 := procs.set curr p1
        let gantt' := gantt ++ [(p.pid, start_this_turn, t')]
        let newIdx := lrArrivals procs1 visited t'
        let visited' := setVisited visited newIdx
        let queue1 := qrest ++ newIdx
        if 0 < p1.remaining_time then
          logicRRLoop q fuel procs1 visited' (queue1 ++ [curr]) t' res gantt'
        else
          let p2 := { p1 with completion_time := t'
                              turnaround_time := t' - p1.arrival_time
                              waiting_time := (t' - p1.arrival_time) - p1.burst_time }
          logicRRLoop q fuel (procs1.set curr p2) visited' queue1 t' (res ++ [p2]) gantt'
    else some (res, gantt)

/-- `logic_rr(procs, q)` of src/main.py: sort by arrival, then seed the
queue with `procs[0]` — the process at index 0 of the sorted list — and
mark it visited, regardless of its arrival time.  (On an empty list the
Python code would raise an IndexError at `procs[0]`; the embedding starts
with an empty queue there, which no claim exercises.)  Returns the
completed processes in completion order together with `gantt_log`. -/
def logicRR (fuel : Nat) (procs : List MProc) (q : Int) :
    Option (List MProc × List (String × Int × Int)) :=
  let sorted := List.insertionSort (fun a b : MProc => a.arrival_time ≤ b.arrival_time) procs
  let visited := (List.replicate sorted.length false).set 0 true
  let queue := if sorted.length = 0 then [] else [0]
  logicRRLoop q fuel sorted visited queue 0 [] []

/-- A single valid process that arrives at time 5 with burst 2. -/
def c1Input : List MProc := [mkMProc "P1" 5 2 0]

/-- C1: the Round Robin implementation `logic_rr` of src/main.py seeds
its queue with the first sorted process at clock 0 without waiting for
its arrival.  For the valid input `P1(arrival 5, burst 2)` with quantum 2
it therefore runs `P1` during `[0,2)` and records completion 2, turnaround
`2 − 5 = −3 < burst` and waiting `−5 < 0`, violating the claimed
invariants `waiting_time ≥ 0` and `turnaround_time ≥ burst_time`. -/
theorem C1_logic_rr_negative_waiting :
    (logicRR 10 c1Input 2).map
        (fun r => r.1.map (fun p => (p.pid, p.completion_time, p.turnaround_time, p.waiting_time))) =
      some [("P1", 2, -3, -5)] ∧
    (logicRR 10 c1Input 2).map (fun r => r.2) = some [("P1", 0, 2)] := by
  refine ⟨by decide, by decide⟩

/-! ## Maximum / minimum of an integer list (for the utilization formula) -/

/-- Maximum of an integer list, 0 on the empty list. -/
def listMaxD : List Int → Int
  | [] => 0
  | x :: xs => xs.foldl max x

/-- Minimum of an integer list, 0 on the empty list. -/
def listMinD : List Int → Int
  | [] => 0
  | x :: xs => xs.foldl min x

theorem foldl_max_pull (l : List Int) : ∀ x y : Int,
    l.foldl max (max x y) = max x (l.foldl max y) := by
  induction l with
  | nil => intro x y; rfl
  | cons z zs ih =>
    intro x y
    simp only [List.foldl_cons]
    rw [max_assoc, ih]

theorem listMaxD_cons (x : Int) (xs : List Int) (hxs : xs ≠ []) :
    listMaxD (x :: xs) = max x (listMaxD xs) := by
  cases xs with
  | nil => exact absurd rfl hxs
  | cons y ys =>
    simp only [listMaxD, List.foldl_cons]
    exact foldl_max_pull ys x y

theorem foldl_min_absorb : ∀ (xs : List Int) (x : Int),
    (∀ y ∈ xs, x ≤ y) → xs.foldl min x = x := by
  intro xs
  induction xs with
  | nil => intro x _; rfl
  | cons y ys ih =>
    intro x h
    simp only [List.foldl_cons]
    rw [min_eq_left (h y (List.mem_cons_self _ _))]
    exact ih x (fun z hz => h z (List.mem_cons_of_mem _ hz))

theorem foldl_min_le_init : ∀ (xs : List Int) (x : Int), xs.foldl min x ≤ x := by
  intro xs
  induction xs with
  | nil => intro x; exact le_refl x
  | cons y ys ih =>
    intro x
    simp only [List.foldl_cons]
    exact le_trans (ih (min x y)) (min_le_left _ _)

theorem foldl_min_le_mem : ∀ (xs : List Int) (x y : Int), y ∈ xs → xs.foldl min x ≤ y := by
  intro xs
  induction xs with
  | nil => intro x y hy; cases hy
  | cons z zs ih =>
    intro x y hy
    simp only [List.foldl_cons]
    rcases List.mem_cons.1 hy with rfl | hy
    · exact le_trans (foldl_min_le_init zs (min x y)) (min_le_right _ _)
    · exact ih (min x z) y hy

theorem listMinD_le {l : List Int} {y : Int} (hy : y ∈ l) : listMinD l ≤ y := by
  cases l with
  | nil => cases hy
  | cons x xs =>
    rcases List.mem_cons.1 hy with rfl | hy
    · exact foldl_min_le_init xs y
    · exact foldl_min_le_mem xs x y hy

theorem foldl_min_mem : ∀ (xs : List Int) (x : Int), xs.foldl min x ∈ x :: xs := by
  intro xs
  induction xs with
  | nil => intro x; exact List.mem_cons_self _ _
  | cons y ys ih =>
    intro x
    simp only [List.foldl_cons]
    have h := ih (min x y)
    rcases List.mem_cons.1 h with h | h
    · rw [h]
      rcases le_total x y with hxy | hxy
      · rw [min_eq_left hxy]; exact List.mem_cons_self _ _
      · rw [min_eq_right hxy]
        exact List.mem_cons_of_mem _ (List.mem_cons_self _ _)
    · exact List.mem_cons_of_mem _ (List.mem_cons_of_mem _ h)

theorem listMinD_mem {l : List Int} (hl : l ≠ []) : listMinD l ∈ l := by
  cases l with
  | nil => exact absurd rfl hl
  | cons x xs => exact foldl_min_mem xs x

/-- The minimum of a non-empty integer list is invariant under
permutation. -/
theorem listMinD_perm {l l' : List Int} (h : l.Perm l') (hl : l ≠ []) :
    listMinD l = listMinD l' := by
  have hl' : l' ≠ [] := by
    intro h0
    exact hl (List.Perm.eq_nil (h0 ▸ h))
  exact le_antisymm
    (listMinD_le (h.mem_iff.2 (listMinD_mem hl')))
    (listMinD_le (h.symm.mem_iff.2 (listMinD_mem hl)))

/-! ## Structural lemmas about the FCFS loop -/

theorem fcfsLoop_map_pid : ∀ (t : Int) (ps : List FProcIn),
    ((fcfsLoop t ps).2.map (·.pid)) = ps.map (·.pid) := by
  intro t ps
  induction ps generalizing t with
  | nil => rfl
  | cons p rest ih => simp [fcfsLoop, ih]

theorem fcfsLoop_map_arrival : ∀ (t : Int) (ps : List FProcIn),
    ((fcfsLoop t ps).2.map (·.arrival_time)) = ps.map (·.arrival_time) := by
  intro t ps
  induction ps generalizing t with
  | nil => rfl
  | cons p rest ih => simp [fcfsLoop, ih]

theorem fcfsLoop_map_burst : ∀ (t : Int) (ps : List FProcIn),
    ((fcfsLoop t ps).2.map (·.burst_time)) = ps.map (·.burst_time) := by
  intro t ps
  induction ps generalizing t with
  | nil => rfl
  | cons p rest ih => simp [fcfsLoop, ih]

theorem fcfsLoop_length : ∀ (t : Int) (ps : List FProcIn),
    (fcfsLoop t ps).2.length = ps.length := by
  intro t ps
  induction ps generalizing t with
  | nil => rfl
  | cons p rest ih => simp [fcfsLoop, ih]

/-- With positive bursts the clock never moves backwards across the FCFS
loop. -/
theorem fcfsLoop_final_ge : ∀ (t : Int) (ps : List FProcIn),
    (∀ p ∈ ps, 0 < p.burst_time) → t ≤ (fcfsLoop t ps).1 := by
  intro t ps
  induction ps generalizing t with
  | nil => intro _; exact le_refl t
  | cons p rest ih =>
    intro hb
    have hstep : t ≤ (if t < p.arrival_time then p.arrival_time else t) + p.burst_time := by
      have hb0 : 0 < p.burst_time := hb p (List.mem_cons_self _ _)
      split
      · omega
      · omega
    calc t ≤ (if t < p.arrival_time then p.arrival_time else t) + p.burst_time := hstep
      _ ≤ (fcfsLoop ((if t < p.arrival_time then p.arrival_time else t) + p.burst_time) rest).1 :=
        ih _ (fun q hq => hb q (List.mem_cons_of_mem _ hq))
      _ = (fcfsLoop t (p :: rest)).1 := rfl

/-- With positive bursts, the final clock of the FCFS loop is the maximum
completion time of the processed list. -/
theorem fcfsLoop_max_completion : ∀ (t : Int) (ps : List FProcIn), ps ≠ [] →
    (∀ p ∈ ps, 0 < p.burst_time) →
    listMaxD ((fcfsLoop t ps).2.map (·.completion_time)) = (fcfsLoop t ps).1 := by
  intro t ps
  induction ps generalizing t with
  | nil => intro h; exact absurd rfl h
  | cons p rest ih =>
    intro _ hb
    cases hrest : rest with
    | nil =>
      subst hrest
      simp [fcfsLoop, listMaxD]
    | cons q qs =>
      have hrne : rest ≠ [] := by rw [hrest]; exact List.cons_ne_nil _ _
      rw [← hrest]
      have hct := ih ((if t < p.arrival_time then p.arrival_time else t) + p.burst_time) hrne
        (fun q hq => hb q (List.mem_cons_of_mem _ hq))
      have hmapne : (fcfsLoop ((if t < p.arrival_time then p.arrival_time else t) + p.burst_time)
          rest).2.map (·.completion_time) ≠ [] := by
        intro h0
        have := congrArg List.length h0
        rw [List.length_map, fcfsLoop_length] at this
        rw [hrest] at this
        exact absurd this (by simp)
      have hle : (if t < p.arrival_time then p.arrival_time else t) + p.burst_time ≤
          (fcfsLoop ((if t < p.arrival_time then p.arrival_time else t) + p.burst_time) rest).1 :=
        fcfsLoop_final_ge _ rest (fun q hq => hb q (List.mem_cons_of_mem _ hq))
      show listMaxD (((if t < p.arrival_time then p.arrival_time else t) + p.burst_time) ::
          (fcfsLoop ((if t < p.arrival_time then p.arrival_time else t) + p.burst_time)
            rest).2.map (·.completion_time)) = _
      rw [listMaxD_cons _ _ hmapne, hct]
      exact max_eq_right hle

/-- The head of the arrival-sorted list carries the minimal arrival time
of the input. -/
theorem insertionSort_head_min_arrival (ps : List FProcIn) (q : FProcIn) (qs : List FProcIn)
    (h : List.insertionSort (fun a b : FProcIn => a.arrival_time ≤ b.arrival_time) ps = q :: qs) :
    q.arrival_time = listMinD (ps.map (·.arrival_time)) := by
  haveI : IsTotal FProcIn (fun a b => a.arrival_time ≤ b.arrival_time) :=
    ⟨fun a b => le_total _ _⟩
  haveI : IsTrans FProcIn (fun a b => a.arrival_time ≤ b.arrival_time) :=
    ⟨fun a b c hab hbc => le_trans hab hbc⟩
  have hsort := List.sorted_insertionSort
    (fun a b : FProcIn => a.arrival_time ≤ b.arrival_time) ps
  rw [h] at hsort
  have hall : ∀ b ∈ qs, q.arrival_time ≤ b.arrival_time :=
    List.rel_of_sorted_cons hsort
  have h1 : listMinD ((q :: qs).map (·.arrival_time)) = q.arrival_time := by
    show (qs.map (·.arrival_time)).foldl min q.arrival_time = _
    refine foldl_min_absorb _ _ ?_
    intro y hy
    obtain ⟨b, hb, rfl⟩ := List.mem_map.1 hy
    exact hall b hb
  have hperm : ((q :: qs).map (·.arrival_time)).Perm (ps.map (·.arrival_time)) := by
    rw [← h]
    exact (List.perm_insertionSort _ ps).map _
  rw [← h1]
  exact listMinD_perm hperm (by simp)

theorem fcfs_processes_eq (ps : List FProcIn) :
    (fcfs_scheduling ps).processes =
      (fcfsLoop 0 (List.insertionSort
        (fun a b : FProcIn => a.arrival_time ≤ b.arrival_time) ps)).2 := rfl

/-- C5 as amended: `fcfs_scheduling` computes CPU utilization as
`100 × Σ burst_time / (max completion_time − min arrival_time)` (clamped
to 0 when the denominator is not positive, and 0 on the empty input) —
whereas `priority_scheduling` divides by the final completion time
measured from 0 and rounds, so the claimed formula holds for it only when
the earliest arrival is 0 (see the counterexample). -/
theorem C5_amended_fcfs_utilization (ps : List FProcIn) (hne : ps ≠ [])
    (hb : ∀ p ∈ ps, 0 < p.burst_time) :
    ((fcfs_scheduling ps).cpu_utilization =
      (if 0 < listMaxD ((fcfs_scheduling ps).processes.map (·.completion_time)) -
              listMinD (ps.map (·.arrival_time)) then
        100 * (((ps.map (·.burst_time)).sum : Int) : ℚ) /
          ((listMaxD ((fcfs_scheduling ps).processes.map (·.completion_time)) -
            listMinD (ps.map (·.arrival_time)) : Int) : ℚ)
      else 0)) ∧
    (fcfs_scheduling ([] : List FProcIn)).cpu_utilization = 0 := by
  constructor
  case right => rfl
  have hperm := List.perm_insertionSort
    (fun a b : FProcIn => a.arrival_time ≤ b.arrival_time) ps
  set sorted := List.insertionSort
    (fun a b : FProcIn => a.arrival_time ≤ b.arrival_time) ps with hsorteddef
  have hsb : ∀ p ∈ sorted, 0 < p.burst_time := fun p hp => hb p (hperm.mem_iff.1 hp)
  have hsne : sorted ≠ [] := by
    intro h0
    rw [h0] at hperm
    exact hne hperm.symm.eq_nil
  obtain ⟨q, qs, hqs⟩ : ∃ q qs, sorted = q :: qs := by
    cases hs : sorted with
    | nil => exact absurd hs hsne
    | cons a b => exact ⟨a, b, rfl⟩
  obtain ⟨p0, tail, hcons⟩ : ∃ p0 tail, (fcfsLoop 0 sorted).2 = p0 :: tail := by
    cases hpp : (fcfsLoop 0 sorted).2 with
    | nil =>
      exfalso
      have hl := fcfsLoop_length 0 sorted
      rw [hpp, hqs] at hl
      exact absurd hl.symm (by simp)
    | cons a b => exact ⟨a, b, rfl⟩
  have harr : p0.arrival_time = listMinD (ps.map (·.arrival_time)) := by
    have hma := fcfsLoop_map_arrival 0 sorted
    rw [hcons, hqs] at hma
    have hpq : p0.arrival_time = q.arrival_time := by
      have := congrArg (fun l => l.headI) hma
      simpa using this
    rw [hpq]
    exact insertionSort_head_min_arrival ps q qs hqs
  have hmax : listMaxD ((fcfsLoop 0 sorted).2.map (·.completion_time)) =
      (fcfsLoop 0 sorted).1 :=
    fcfsLoop_max_completion 0 sorted hsne hsb
  have hsum : (((fcfsLoop 0 sorted).2.map (·.burst_time)).sum : Int) =
      ((ps.map (·.burst_time)).sum : Int) := by
    rw [fcfsLoop_map_burst]
    exact (hperm.map (·.burst_time)).sum_eq
  have hcpu : (fcfs_scheduling ps).cpu_utilization =
      (if 0 < (fcfsLoop 0 sorted).1 - p0.arrival_time then
        ((((fcfsLoop 0 sorted).2.map (·.burst_time)).sum : Int) : ℚ) /
          (((fcfsLoop 0 sorted).1 - p0.arrival_time : Int) : ℚ) * 100
      else 0) := by
    unfold fcfs_scheduling
    dsimp only
    rw [← hsorteddef, hcons]
  rw [hcpu, fcfs_processes_eq, ← hsorteddef, hmax, harr, hsum]
  by_cases hpos : 0 < (fcfsLoop 0 sorted).1 - listMinD (ps.map (·.arrival_time))
  · rw [if_pos hpos, if_pos hpos]
    ring
  · rw [if_neg hpos, if_neg hpos]

/-- Witness for `C5_amended_fcfs_utilization` on the single valid process
`Q1(arrival 0, burst 4)`. -/
theorem C5_amended_witness :
    (([{ pid := "Q1", arrival_time := 0, burst_time := 4 }] : List FProcIn) ≠ [] ∧
      ∀ p ∈ ([{ pid := "Q1", arrival_time := 0, burst_time := 4 }] : List FProcIn),
        0 < p.burst_time) ∧
    (((fcfs_scheduling [{ pid := "Q1", arrival_time := 0, burst_time := 4 }]).cpu_utilization =
      (if 0 < listMaxD ((fcfs_scheduling
              [{ pid := "Q1", arrival_time := 0, burst_time := 4 }]).processes.map
                (·.completion_time)) -
            listMinD (([{ pid := "Q1", arrival_time := 0, burst_time := 4 }] :
              List FProcIn).map (·.arrival_time)) then
        100 * (((([{ pid := "Q1", arrival_time := 0, burst_time := 4 }] :
            List FProcIn).map (·.burst_time)).sum : Int) : ℚ) /
          ((listMaxD ((fcfs_scheduling
              [{ pid := "Q1", arrival_time := 0, burst_time := 4 }]).processes.map
                (·.completion_time)) -
            listMinD (([{ pid := "Q1", arrival_time := 0, burst_time := 4 }] :
              List FProcIn).map (·.arrival_time)) : Int) : ℚ)
      else 0)) ∧
    (fcfs_scheduling ([] : List FProcIn)).cpu_utilization = 0) :=
  ⟨⟨by decide, by decide⟩,
    C5_amended_fcfs_utilization _ (by decide) (by decide)⟩

/-- A process with a negative arrival time, which §7 of the spec says
must be rejected with `InvalidProcess`. -/
def c9Input : List FProcIn := [{ pid := "P1", arrival_time := -1, burst_time := 5 }]

/-- C9 counterexample: `fcfs_scheduling` contains no validation and no
error path.  On the invalid input `P1(arrival −1, burst 5)` it runs the
simulation and returns a fully populated result (start 0, completion 5,
waiting 1, turnaround 6) instead of rejecting the input. -/
theorem C9_counterexample_invalid_input_accepted :
    (fcfs_scheduling c9Input).processes =
      [{ pid := "P1", arrival_time := -1, burst_time := 5, start_time := 0
         completion_time := 5, waiting_time := 1, turnaround_time := 6 }] ∧
    (fcfs_scheduling c9Input).gantt_chart = [("P1", 0, 5)] :=
  ⟨by decide, by decide⟩

/-- C9 as amended: the schedulers perform no input validation at all —
for every input list, including ones containing negative arrival times or
non-positive bursts, `fcfs_scheduling` runs to completion and returns a
result with one processed entry and one Gantt segment per input process;
no `InvalidProcess` error exists in the code. -/
theorem C9_amended_no_validation (ps : List FProcIn) :
    (fcfs_scheduling ps).processes.length = ps.length ∧
    (fcfs_scheduling ps).gantt_chart.length = ps.length := by
  have hlen : (fcfs_scheduling ps).processes.length = ps.length := by
    rw [fcfs_processes_eq, fcfsLoop_length]
    exact (List.perm_insertionSort _ ps).length_eq
  refine ⟨hlen, ?_⟩
  have hg : (fcfs_scheduling ps).gantt_chart =
      (fcfs_scheduling ps).processes.map (fun p => (p.pid, p.start_time, p.completion_time)) :=
    rfl
  rw [hg, List.length_map, hlen]

/-! ## The `Process` objects of src/sjf.py and src/rr.py

Both modules' functions operate on duck-typed objects with attributes
`pid`, `arrival`, `burst`, `remaining`, `completion`, `turnaround`,
`waiting`.  `completion` is `Option Int` because `sjf_non_preemptive`
tests `p.completion is None`; `round_robin` never reads `completion`
before writing it, so the same record type serves both modules. -/

structure SProc where
  pid : String
  arrival : Int
  burst : Int
  remaining : Int
  completion : Option Int
  turnaround : Int
  waiting : Int
deriving Repr, DecidableEq

/-- The `Process.__init__` of src/sjf.py (and, up to the initial value of
`completion`, of src/rr.py): `remaining` starts equal to `burst`. -/
def mkSProc (pid : String) (arrival burst : Int) : SProc :=
  { pid := pid, arrival := arrival, burst := burst, remaining := burst
    completion := none, turnaround := 0, waiting := 0 }

/-- Placeholder for out-of-range index lookups (unreachable under the
loop invariants). -/
def sDflt : SProc := mkSProc "" 0 0

/-- The `while completed < n` loop of `sjf_non_preemptive` in src/sjf.py:
among arrived processes with `completion is None` pick the one with the
smallest `burst` (first minimal, in list order), run it to completion. -/
def sjfNPLoop : Nat → List SProc → Int → Nat → List (String × Int × Int) →
    Option (List (String × Int × Int) × List SProc)
  | 0, procs, _, completed, gantt =>
    if completed < procs.length then none else some (gantt, procs)
  | fuel + 1, procs, t, completed, gantt =>
    if completed < procs.length then
      match pyMin (fun i => (procs.getD i sDflt).burst)
          ((List.range procs.length).filter
            (fun i => decide ((procs.getD i sDflt).arrival ≤ t) &&
              ((procs.getD i sDflt).completion == none))) with
      | none => sjfNPLoop fuel procs (t + 1) completed gantt
      | some i =>
        let p := procs.getD i sDflt
        let start := t
        let endt := t + p.burst
        let p' := { p with completion := some endt
                           turnaround := endt - p.arrival
                           waiting := (endt - p.arrival) - p.burst }
        sjfNPLoop fuel (procs.set i p') endt (completed + 1)
          (gantt ++ [(p.pid, start, endt)])
    else some (gantt, procs)

/-- `sjf_non_preemptive(processes)` from src/sjf.py (fuel-driven). -/
def sjf_non_preemptive (fuel : Nat) (procs : List SProc) :
    Option (List (String × Int × Int) × List SProc) :=
  sjfNPLoop fuel procs 0 0 []

/-- The `while completed < n` loop of `sjf_preemptive` in src/sjf.py:
each unit of time the arrived process with the smallest `remaining` runs
for one unit; a Gantt entry `(pid, start)` is appended only when the
running process changes (`current` holds the index of the process that
ran in the previous unit). -/
def sjfPLoop : Nat → List SProc → Int → Nat → Option Nat → List (String × Int) →
    Option (List (String × Int) × List SProc)
  | 0, procs, _, completed, _, gantt =>
    if completed < procs.length then none else some (gantt, procs)
  | fuel + 1, procs, t, completed, current, gantt =>
    if completed < procs.length then
      match pyMin (fun i => (procs.getD i sDflt).remaining)
          ((List.range procs.length).filter
            (fun i => decide ((procs.getD i sDflt).arrival ≤ t) &&
              decide (0 < (procs.getD i sDflt).remaining))) with
      | none => sjfPLoop fuel procs (t + 1) completed current gantt
      | some i =>
        let p := procs.getD i sDflt
        let gantt' := if current ≠ some i then gantt ++ [(p.pid, t)] else gantt
        let rem' := p.remaining - 1
        let t' := t + 1
        if rem' = 0 then
          let p' := { p with remaining := rem', completion := some t'
                             turnaround := t' - p.arrival
                             waiting := (t' - p.arrival) - p.burst }
          sjfPLoop fuel (procs.set i p') t' (completed + 1) (some i) gantt'
        else
          sjfPLoop fuel (procs.set i { p with remaining := rem' }) t' completed (some i) gantt'
    else some (gantt, procs)

/-- `sjf_preemptive(processes)` from src/sjf.py (fuel-driven). -/
def sjf_preemptive (fuel : Nat) (procs : List SProc) :
    Option (List (String × Int) × List SProc) :=
  sjfPLoop fuel procs 0 0 none []

/-! ## Round Robin — src/rr.py -/

/-- State of the `round_robin` loop: the (arrival-sorted) process list
paired with the per-process `arrived` flags, the FIFO queue of indices
into that list, the clock, the Gantt chart and the completion counter. -/
structure RRState where
  ps : List (SProc × Bool)
  queue : List Nat
  time : Int
  gantt : List (String × Int × Int)
  completed : Nat
deriving Repr, DecidableEq

/-- One of the two arrival scans of `round_robin`
(`for i, p in enumerate(processes): if <cond p> and not arrived[i]:
queue.append(p); arrived[i] = True`): returns the enqueued indices, in
index order, together with the updated flags.  `i` is the index of the
first element of the remaining list. -/
def scanFrom (c : SProc → Bool) : Nat → List (SProc × Bool) → List Nat × List (SProc × Bool)
  | _, [] => ([], [])
  | i, (p, a) :: rest =>
    let s := scanFrom c (i + 1) rest
    if !a && c p then (i :: s.1, (p, true) :: s.2)
    else (s.1, (p, a) :: s.2)

/-- Lines 57–87 of src/rr.py: execute one slice for the dequeued head
`cur` of the queue (the rest being `qrest`): run for
`min(remaining, time_quantum)`, log the Gantt segment, enqueue the
processes that arrived during the slice, then re-enqueue `cur` if it
still has remaining work, or set its completion metrics. -/
def rrExec (q : Int) (s : RRState) (cur : Nat) (qrest : List Nat) : RRState :=
  let p := (s.ps.getD cur (sDflt, true)).1
  let start := s.time
  let execute_time := min p.remaining q
  let t' := s.time + execute_time
  let rem' := p.remaining - execute_time
  let ps2 := s.ps.set cur ({ p with remaining := rem' }, (s.ps.getD cur (sDflt, true)).2)
  let gantt' := s.gantt ++ [(p.pid, start, t')]
  let scan2 := scanFrom (fun pr => decide (start < pr.arrival) && decide (pr.arrival ≤ t')) 0 ps2
  if 0 < rem' then
    { ps := scan2.2, queue := (qrest ++ scan2.1) ++ [cur], time := t'
      gantt := gantt', completed := s.completed }
  else
    let pc := scan2.2.getD cur (sDflt, true)
    { ps := scan2.2.set cur
        ({ pc.1 with completion := some t', turnaround := t' - pc.1.arrival
                     waiting := (t' - pc.1.arrival) - pc.1.burst }, pc.2)
      queue := qrest ++ scan2.1, time := t', gantt := gantt'
      completed := s.completed + 1 }

/-- One iteration of the `while completed < n` loop of `round_robin`:
scan for processes that have arrived by the current time, then either
idle for one unit (empty queue) or execute a slice for the queue head. -/
def rrStep (q : Int) (s : RRState) : RRState :=
  let scan1 := scanFrom (fun pr => decide (pr.arrival ≤ s.time)) 0 s.ps
  let s1 : RRState := { s with ps := scan1.2, queue := s.queue ++ scan1.1 }
  match s1.queue with
  | [] => { s1 with time := s1.time + 1 }
  | cur :: qrest => rrExec q s1 cur qrest

/-- The `while completed < n` loop of `round_robin` (fuel-driven). -/
def rrLoop (q : Int) (n : Nat) : Nat → RRState → Option RRState
  | 0, s => if s.completed < n then none else some s
  | fuel + 1, s => if s.completed < n then rrLoop q n fuel (rrStep q s) else some s

/-- The initial state of `round_robin`: the input list sorted in place by
arrival time, all `arrived` flags false, empty queue, clock 0. -/
def rrInit (processes : List SProc) : RRState :=
  { ps := (List.insertionSort (fun a b : SProc => a.arrival ≤ b.arrival) processes).map
      (fun p => (p, false))
    queue := [], time := 0, gantt := [], completed := 0 }

/-- `round_robin(processes, time_quantum)` from src/rr.py (fuel-driven).
Returns the Gantt chart together with the mutated process list (the
caller's list after the in-place sort and the in-place mutations). -/
def round_robin (fuel : Nat) (processes : List SProc) (time_quantum : Int) :
    Option (List (String × Int × Int) × List SProc) :=
  (rrLoop time_quantum processes.length fuel (rrInit processes)).map
    (fun s => (s.gantt, s.ps.map Prod.fst))

theorem filter_map_comm {α β : Type} (l : List α) (f : α → β) (p : β → Bool) :
    (l.map f).filter p = (l.filter (fun a => p (f a))).map f := by
  induction l with
  | nil => rfl
  | cons x xs ih =>
    simp only [List.map_cons, List.filter_cons]
    by_cases h : p (f x)
    · simp [h, ih]
    · simp [h, ih]

theorem getD_set_ne {α : Type} (l : List α) (k j : Nat) (x d : α) (h : j ≠ k) :
    (l.set k x).getD j d = l.getD j d := by
  simp only [List.getD_eq_getElem?_getD, List.getElem?_set_ne h.symm]

theorem getD_set_self {α : Type} (l : List α) (k : Nat) (x d : α) (h : k < l.length) :
    (l.set k x).getD k d = x := by
  simp only [List.getD_eq_getElem?_getD, List.getElem?_set_self, h]
  simp [List.getElem?_eq_getElem h]

/-- The arrival scan enqueues exactly the indices of the not-yet-arrived
processes satisfying the scan condition, in index order. -/
theorem scanFrom_fst (c : SProc → Bool) : ∀ (ps : List (SProc × Bool)) (i : Nat),
    (scanFrom c i ps).1 =
      ((List.range ps.length).filter
        (fun j => !(ps.getD j (sDflt, true)).2 && c (ps.getD j (sDflt, true)).1)).map (· + i)
  | [], i => rfl
  | (p, a) :: rest, i => by
    have ih := scanFrom_fst c rest (i + 1)
    have hrange : List.range ((p, a) :: rest).length =
        0 :: (List.range rest.length).map Nat.succ := by
      simp [List.range_succ_eq_map]
    rw [hrange, List.filter_cons]
    have hfm : ((List.range rest.length).map Nat.succ).filter
          (fun j => !((((p, a) :: rest)).getD j (sDflt, true)).2 &&
            c ((((p, a) :: rest)).getD j (sDflt, true)).1) =
        ((List.range rest.length).filter
          (fun j => !(rest.getD j (sDflt, true)).2 && c (rest.getD j (sDflt, true)).1)).map
            Nat.succ := by
      rw [filter_map_comm]
      congr 1
    rw [hfm]
    have hhead : (!(((p, a) :: rest).getD 0 (sDflt, true)).2 &&
        c (((p, a) :: rest).getD 0 (sDflt, true)).1) = (!a && c p) := rfl
    rw [hhead]
    by_cases hpa : (!a && c p) = true
    · have hL : (scanFrom c i ((p, a) :: rest)).1 = i :: (scanFrom c (i + 1) rest).1 := by
        simp only [scanFrom]
        rw [if_pos hpa]

      rw [hL, ih, if_pos hpa]
      simp only [List.map_cons, List.map_map]
      congr 1
      · omega
      · apply List.map_congr_left
        intro j _
        simp only [Function.comp_apply]
        omega
    · have hL : (scanFrom c i ((p, a) :: rest)).1 = (scanFrom c (i + 1) rest).1 := by
        simp only [scanFrom]
        rw [if_neg hpa]
      rw [hL, ih, if_neg hpa]
      rw [List.map_map]
      apply List.map_congr_left
      intro j _
      simp only [Function.comp_apply]
      omega

/-- `scanFrom` starting at index 0: the enqueued indices are a filter of
`List.range`. -/
theorem scanFrom_fst_zero (c : SProc → Bool) (ps : List (SProc × Bool)) :
    (scanFrom c 0 ps).1 =
      (List.range ps.length).filter
        (fun j => !(ps.getD j (sDflt, true)).2 && c (ps.getD j (sDflt, true)).1) := by
  rw [scanFrom_fst]
  simp

/-- C3: after a slice run by the queue-head process `cur` (dequeued at
time `s.time`, slice length `min remaining q`), every process whose
arrival falls within the slice — arrival ≤ the new clock value and not
previously enqueued — is appended to the queue in index order (which is
arrival order, second conjunct, since the list is arrival-sorted), and
only then is `cur` re-appended when it still has remaining work; being
ahead of `cur` in the FIFO queue, every such new arrival is dequeued
before `cur` runs again. -/
theorem C3_rr_slice_arrivals_enqueued_before_returning_process
    (q : Int) (s : RRState) (cur : Nat) (qrest : List Nat)
    (hcur : cur < s.ps.length)
    (hcura : (s.ps.getD cur (sDflt, true)).2 = true)
    (hmono : ∀ i, i < s.ps.length → ∀ j, j < s.ps.length → i < j →
      (s.ps.getD i (sDflt, true)).1.arrival ≤ (s.ps.getD j (sDflt, true)).1.arrival)
    (hrem : 0 < (s.ps.getD cur (sDflt, true)).1.remaining -
      min (s.ps.getD cur (sDflt, true)).1.remaining q) :
    ((rrExec q s cur qrest).queue =
      (qrest ++ (List.range s.ps.length).filter
        (fun i => !(s.ps.getD i (sDflt, true)).2 &&
          (decide (s.time < (s.ps.getD i (sDflt, true)).1.arrival) &&
           decide ((s.ps.getD i (sDflt, true)).1.arrival ≤
             s.time + min (s.ps.getD cur (sDflt, true)).1.remaining q)))) ++ [cur]) ∧
    ((List.range s.ps.length).filter
      (fun i => !(s.ps.getD i (sDflt, true)).2 &&
        (decide (s.time < (s.ps.getD i (sDflt, true)).1.arrival) &&
         decide ((s.ps.getD i (sDflt, true)).1.arrival ≤
           s.time + min (s.ps.getD cur (sDflt, true)).1.remaining q)))).Pairwise
      (fun i j => (s.ps.getD i (sDflt, true)).1.arrival ≤
        (s.ps.getD j (sDflt, true)).1.arrival) := by
  constructor
  · have hfe : ∀ (X : SProc × Bool), X.2 = (s.ps.getD cur (sDflt, true)).2 →
        X.1.arrival = (s.ps.getD cur (sDflt, true)).1.arrival →
        ∀ j ∈ List.range s.ps.length,
        (!((s.ps.set cur X).getD j (sDflt, true)).2 &&
          (decide (s.time < ((s.ps.set cur X).getD j (sDflt, true)).1.arrival) &&
           decide (((s.ps.set cur X).getD j (sDflt, true)).1.arrival ≤
             s.time + min (s.ps.getD cur (sDflt, true)).1.remaining q))) =
        (!(s.ps.getD j (sDflt, true)).2 &&
          (decide (s.time < (s.ps.getD j (sDflt, true)).1.arrival) &&
           decide ((s.ps.getD j (sDflt, true)).1.arrival ≤
             s.time + min (s.ps.getD cur (sDflt, true)).1.remaining q))) := by
      intro X hX2 hX1 j _
      by_cases hj : j = cur
      · subst hj
        rw [getD_set_self _ _ _ _ hcur, hX2, hX1]
      · rw [getD_set_ne _ _ _ _ _ hj]
    unfold rrExec
    dsimp only
    rw [if_pos hrem, scanFrom_fst_zero, List.length_set]
    rw [List.filter_congr (hfe
      ({ (s.ps.getD cur (sDflt, true)).1 with
          remaining := (s.ps.getD cur (sDflt, true)).1.remaining -
            min (s.ps.getD cur (sDflt, true)).1.remaining q },
        (s.ps.getD cur (sDflt, true)).2) rfl rfl)]
  · refine List.Pairwise.imp_of_mem ?_ ((List.pairwise_lt_range _).filter _)
    intro a b ha hb hab
    have ha' : a < s.ps.length := List.mem_range.1 (List.mem_of_mem_filter ha)
    have hb' : b < s.ps.length := List.mem_range.1 (List.mem_of_mem_filter hb)
    exact hmono a ha' b hb' hab

/-- Witness for the C3 theorem: the state of the rr.py example
(`P1(0,8), P2(1,4), P3(2,2)`, quantum 3) right after the first
top-of-loop arrival scan, with `P1` dequeued: `P2` and `P3` arrive during
the slice `[0,3)` and are enqueued before `P1` is re-appended. -/
theorem C3_witness :
    (let s : RRState :=
      { ps := [(mkSProc "P1" 0 8, true), (mkSProc "P2" 1 4, false), (mkSProc "P3" 2 2, false)]
        queue := [], time := 0, gantt := [], completed := 0 }
     (0 < s.ps.length ∧ (s.ps.getD 0 (sDflt, true)).2 = true ∧
      (∀ i, i < s.ps.length → ∀ j, j < s.ps.length → i < j →
        (s.ps.getD i (sDflt, true)).1.arrival ≤ (s.ps.getD j (sDflt, true)).1.arrival) ∧
      0 < (s.ps.getD 0 (sDflt, true)).1.remaining -
        min (s.ps.getD 0 (sDflt, true)).1.remaining 3) ∧
     ((rrExec 3 s 0 []).queue =
      ([] ++ (List.range s.ps.length).filter
        (fun i => !(s.ps.getD i (sDflt, true)).2 &&
          (decide (s.time < (s.ps.getD i (sDflt, true)).1.arrival) &&
           decide ((s.ps.getD i (sDflt, true)).1.arrival ≤
             s.time + min (s.ps.getD 0 (sDflt, true)).1.remaining 3)))) ++ [0]) ∧
     ((List.range s.ps.length).filter
      (fun i => !(s.ps.getD i (sDflt, true)).2 &&
        (decide (s.time < (s.ps.getD i (sDflt, true)).1.arrival) &&
         decide ((s.ps.getD i (sDflt, true)).1.arrival ≤
           s.time + min (s.ps.getD 0 (sDflt, true)).1.remaining 3)))).Pairwise
      (fun i j => (s.ps.getD i (sDflt, true)).1.arrival ≤
        (s.ps.getD j (sDflt, true)).1.arrival)) :=
  ⟨⟨by decide, by decide, by decide, by decide⟩,
    C3_rr_slice_arrivals_enqueued_before_returning_process 3 _ 0 []
      (by decide) (by decide) (by decide) (by decide)⟩

/-- The arrival scan leaves every process record unchanged and turns the
`arrived` flag of an entry on exactly when the scan condition holds for
it (Python only ever sets flags to `True`). -/
theorem scanFrom_snd (c : SProc → Bool) : ∀ (ps : List (SProc × Bool)) (i : Nat),
    (scanFrom c i ps).2 = ps.map (fun pa => (pa.1, pa.2 || c pa.1))
  | [], _ => rfl
  | (p, a) :: rest, i => by
    have ih := scanFrom_snd c rest (i + 1)
    cases a with
    | false =>
      cases hc : c p with
      | false =>
        have hL : (scanFrom c i ((p, false) :: rest)).2 =
            (p, false) :: (scanFrom c (i + 1) rest).2 := by
          simp only [scanFrom]
          rw [if_neg (by simp [hc])]
        rw [hL, ih]
        simp [hc]
      | true =>
        have hL : (scanFrom c i ((p, false) :: rest)).2 =
            (p, true) :: (scanFrom c (i + 1) rest).2 := by
          simp only [scanFrom]
          rw [if_pos (by simp [hc])]
        rw [hL, ih]
        simp [hc]
    | true =>
      have hL : (scanFrom c i ((p, true) :: rest)).2 =
          (p, true) :: (scanFrom c (i + 1) rest).2 := by
        simp only [scanFrom]
        rw [if_neg (by simp)]
      rw [hL, ih]
      simp

theorem countP_set {α : Type} (p : α → Bool) :
    ∀ (l : List α) (k : Nat) (x : α) (d : α), k < l.length →
      p x = p (l.getD k d) → (l.set k x).countP p = l.countP p
  | [], k, _, _, hk => by cases hk
  | y :: rest, 0, x, d, _ => by
    intro hpx
    simp only [List.getD_cons_zero] at hpx
    simp [List.set, List.countP_cons, hpx]
  | y :: rest, k + 1, x, d, hk => by
    intro hpx
    simp only [List.getD_cons_succ] at hpx
    have ih := countP_set p rest k x d (by simpa using hk) hpx
    simp [List.set, List.countP_cons, ih]

theorem getD_mem_of_lt {α : Type} (l : List α) (k : Nat) (d : α) (hk : k < l.length) :
    l.getD k d ∈ l := by
  rw [List.getD_eq_getElem?_getD, List.getElem?_eq_getElem hk]
  exact List.getElem_mem hk

theorem getD_map {α β : Type} (f : α → β) : ∀ (l : List α) (j : Nat) (d : α),
    (l.map f).getD j (f d) = f (l.getD j d)
  | [], _, _ => rfl
  | x :: rest, 0, d => rfl
  | x :: rest, j + 1, d => by
    simp only [List.map_cons, List.getD_cons_succ]
    exact getD_map f rest j d

theorem countP_set_incr {α : Type} (p : α → Bool) :
    ∀ (l : List α) (k : Nat) (x : α) (d : α), k < l.length →
      p x = true → p (l.getD k d) = false →
      (l.set k x).countP p = l.countP p + 1
  | [], k, _, _, hk => by cases hk
  | y :: rest, 0, x, d, _ => by
    intro hpx hpy
    simp only [List.getD_cons_zero] at hpy
    simp [List.set, List.countP_cons, hpx, hpy]
  | y :: rest, k + 1, x, d, hk => by
    intro hpx hpy
    simp only [List.getD_cons_succ] at hpy
    have ih := countP_set_incr p rest k x d (by simpa using hk) hpx hpy
    simp only [List.set, List.countP_cons, ih]
    by_cases hy : p y
    · simp [hy]
    · simp [hy]

theorem map_set_of_eq {α β : Type} (f : α → β) : ∀ (l : List α) (k : Nat) (x d : α),
    k < l.length → f x = f (l.getD k d) → (l.set k x).map f = l.map f
  | [], k, _, _, hk => by cases hk
  | y :: rest, 0, x, d, _ => by
    intro hf
    simp only [List.getD_cons_zero] at hf
    simp [List.set, hf]
  | y :: rest, k + 1, x, d, hk => by
    intro hf
    simp only [List.getD_cons_succ] at hf
    have ih := map_set_of_eq f rest k x d (by simpa using hk) hf
    simp [List.set, ih]

/-- Loop invariant of `round_robin` relative to the arrival-sorted base
list: identity fields never change; queue members are in range, arrived
and have work left; a process that has not arrived yet has its initial
positive remaining time; `completion` is set exactly when the remaining
time reached 0; the completion counter counts the finished processes;
and the queue holds no duplicates. -/
structure rrGood (basep : List SProc) (s : RRState) : Prop where
  frame : s.ps.map (fun pa => (pa.1.pid, pa.1.arrival, pa.1.burst)) =
    basep.map (fun p => (p.pid, p.arrival, p.burst))
  queue_mem : ∀ i ∈ s.queue, i < s.ps.length ∧
    0 < (s.ps.getD i (sDflt, true)).1.remaining ∧
    (s.ps.getD i (sDflt, true)).2 = true
  fresh : ∀ j, j < s.ps.length → (s.ps.getD j (sDflt, true)).2 = false →
    0 < (s.ps.getD j (sDflt, true)).1.remaining
  compl_iff : ∀ j, j < s.ps.length →
    ((s.ps.getD j (sDflt, true)).1.completion.isSome ↔
      (s.ps.getD j (sDflt, true)).1.remaining = 0)
  count : s.completed = s.ps.countP (fun pa => pa.1.remaining == 0)
  nodup : s.queue.Nodup

/-- The default entry is a fixed point of the flag-setting map of an
arrival scan. -/
theorem flagOr_dflt (c : SProc → Bool) :
    (fun pa : SProc × Bool => (pa.1, pa.2 || c pa.1)) (sDflt, true) = (sDflt, true) := by
  simp

/-- Position-wise description of the flags after an arrival scan. -/
theorem scan_getD (c : SProc → Bool) (ps : List (SProc × Bool)) (j : Nat) :
    ((scanFrom c 0 ps).2).getD j (sDflt, true) =
      ((ps.getD j (sDflt, true)).1,
        (ps.getD j (sDflt, true)).2 || c (ps.getD j (sDflt, true)).1) := by
  have h := getD_map (fun pa : SProc × Bool => (pa.1, pa.2 || c pa.1)) ps j (sDflt, true)
  dsimp only at h
  rw [Bool.true_or] at h
  rw [scanFrom_snd, h]

/-- The process record at a position is unchanged by an arrival scan. -/
theorem scan_getD_fst (c : SProc → Bool) (ps : List (SProc × Bool)) (j : Nat) :
    (((scanFrom c 0 ps).2).getD j (sDflt, true)).1 = (ps.getD j (sDflt, true)).1 := by
  rw [scan_getD]

/-- The flag at a position after an arrival scan. -/
theorem scan_getD_snd (c : SProc → Bool) (ps : List (SProc × Bool)) (j : Nat) :
    (((scanFrom c 0 ps).2).getD j (sDflt, true)).2 =
      ((ps.getD j (sDflt, true)).2 || c (ps.getD j (sDflt, true)).1) := by
  rw [scan_getD]

/-- An arrival scan preserves the loop invariant, with the enqueued
indices appended to the queue. -/
theorem rrGood_after_scan (basep : List SProc) (s : RRState) (c : SProc → Bool)
    (h : rrGood basep s) :
    rrGood basep { s with ps := (scanFrom c 0 s.ps).2
                          queue := s.queue ++ (scanFrom c 0 s.ps).1 } := by
  have hlen : ((scanFrom c 0 s.ps).2).length = s.ps.length := by
    rw [scanFrom_snd, List.length_map]
  refine ⟨?_, ?_, ?_, ?_, ?_, ?_⟩
  · show ((scanFrom c 0 s.ps).2).map _ = _
    rw [scanFrom_snd, List.map_map]
    calc s.ps.map ((fun pa : SProc × Bool => (pa.1.pid, pa.1.arrival, pa.1.burst)) ∘
          (fun pa => (pa.1, pa.2 || c pa.1)))
        = s.ps.map (fun pa => (pa.1.pid, pa.1.arrival, pa.1.burst)) :=
          List.map_congr_left (fun pa _ => rfl)
      _ = basep.map (fun p => (p.pid, p.arrival, p.burst)) := h.frame
  · intro i hi
    rcases List.mem_append.1 hi with hi | hi
    · obtain ⟨h1, h2, h3⟩ := h.queue_mem i hi
      refine ⟨by rw [hlen]; exact h1, ?_, ?_⟩
      · rw [scan_getD_fst]; exact h2
      · rw [scan_getD_snd, h3, Bool.true_or]
    · rw [scanFrom_fst_zero] at hi
      have hi' := List.mem_filter.1 hi
      have hjlen : i < s.ps.length := List.mem_range.1 hi'.1
      have hcond := hi'.2
      have hflag : (s.ps.getD i (sDflt, true)).2 = false := by
        cases hb : (s.ps.getD i (sDflt, true)).2 with
        | false => rfl
        | true => rw [hb] at hcond; simp at hcond
      have hc : c (s.ps.getD i (sDflt, true)).1 = true := by
        rw [hflag] at hcond; simpa using hcond
      refine ⟨by rw [hlen]; exact hjlen, ?_, ?_⟩
      · rw [scan_getD_fst]; exact h.fresh i hjlen hflag
      · rw [scan_getD_snd, hflag, hc]
        rfl
  · intro j hj hflag
    rw [hlen] at hj
    rw [scan_getD_snd] at hflag
    have hflag' : (s.ps.getD j (sDflt, true)).2 = false :=
      (Bool.or_eq_false_iff.1 hflag).1
    rw [scan_getD_fst]
    exact h.fresh j hj hflag'
  · intro j hj
    rw [hlen] at hj
    rw [scan_getD_fst]
    exact h.compl_iff j hj
  · show s.completed = _
    rw [scanFrom_snd, List.countP_map, h.count]
    exact List.countP_congr (fun pa _ => Iff.rfl)
  · show (s.queue ++ (scanFrom c 0 s.ps).1).Nodup
    rw [List.nodup_append]
    refine ⟨h.nodup, ?_, ?_⟩
    · rw [scanFrom_fst_zero]
      exact (List.nodup_range _).filter _
    · intro i hi hi'
      have h3 := (h.queue_mem i hi).2.2
      rw [scanFrom_fst_zero] at hi'
      have hcond := (List.mem_filter.1 hi').2
      rw [h3] at hcond
      simp at hcond

/-- Replacing an entry by one with the same identity fields leaves the
identity projection of the list unchanged. -/
theorem map_triple_set (l : List (SProc × Bool)) (k : Nat) (Y : SProc × Bool)
    (hk : k < l.length)
    (hpid : Y.1.pid = (l.getD k (sDflt, true)).1.pid)
    (harr : Y.1.arrival = (l.getD k (sDflt, true)).1.arrival)
    (hbur : Y.1.burst = (l.getD k (sDflt, true)).1.burst) :
    (l.set k Y).map (fun pa => (pa.1.pid, pa.1.arrival, pa.1.burst)) =
      l.map (fun pa => (pa.1.pid, pa.1.arrival, pa.1.burst)) :=
  map_set_of_eq _ l k Y (sDflt, true) hk (by
    show (Y.1.pid, Y.1.arrival, Y.1.burst) =
      ((l.getD k (sDflt, true)).1.pid, (l.getD k (sDflt, true)).1.arrival,
        (l.getD k (sDflt, true)).1.burst)
    rw [hpid, harr, hbur])

theorem rrExec_good (basep : List SProc) (q : Int) (s : RRState) (cur : Nat) (qrest : List Nat)
    (h : rrGood basep { s with queue := cur :: qrest }) :
    rrGood basep (rrExec q s cur qrest) := by
  obtain ⟨hcl0, hcr0, hcf0⟩ := h.queue_mem cur (List.mem_cons_self _ _)
  have hcl : cur < s.ps.length := hcl0
  have hcr : 0 < (s.ps.getD cur (sDflt, true)).1.remaining := hcr0
  have hcf : (s.ps.getD cur (sDflt, true)).2 = true := hcf0
  have hnd : (cur :: qrest).Nodup := h.nodup
  have hcnq : cur ∉ qrest := (List.nodup_cons.1 hnd).1
  have hndq : qrest.Nodup := (List.nodup_cons.1 hnd).2
  unfold rrExec
  dsimp only
  set Pr := (s.ps.getD cur (sDflt, true)).1 with hPr
  set Fl := (s.ps.getD cur (sDflt, true)).2 with hFl
  set ef := min Pr.remaining q with hef
  set rem2 := Pr.remaining - ef with hrem2
  set X : SProc × Bool := ({ Pr with remaining := rem2 }, Fl) with hXdef
  set ps2 := s.ps.set cur X with hps2
  set c2 : SProc → Bool :=
    fun pr => decide (s.time < pr.arrival) && decide (pr.arrival ≤ s.time + ef) with hc2
  have hrem0 : 0 <= rem2 := by
    have hminle := min_le_left Pr.remaining q
    rw [hrem2, hef]
    omega
  have hlen2 : ps2.length = s.ps.length := by
    rw [hps2, List.length_set]
  have hget2self : ps2.getD cur (sDflt, true) = X := by
    rw [hps2]; exact getD_set_self _ _ _ _ hcl
  have hget2ne : ∀ j, j ≠ cur → ps2.getD j (sDflt, true) = s.ps.getD j (sDflt, true) :=
    fun j hj => by rw [hps2]; exact getD_set_ne _ _ _ _ _ hj
  have hlen3 : ((scanFrom c2 0 ps2).2).length = s.ps.length := by
    rw [scanFrom_snd, List.length_map, hlen2]
  have hget3fst : ∀ j, (((scanFrom c2 0 ps2).2).getD j (sDflt, true)).1 =
      (ps2.getD j (sDflt, true)).1 := fun j => scan_getD_fst c2 ps2 j
  have hget3snd : ∀ j, (((scanFrom c2 0 ps2).2).getD j (sDflt, true)).2 =
      ((ps2.getD j (sDflt, true)).2 || c2 (ps2.getD j (sDflt, true)).1) :=
    fun j => scan_getD_snd c2 ps2 j
  have hframe3 : ((scanFrom c2 0 ps2).2).map (fun pa => (pa.1.pid, pa.1.arrival, pa.1.burst)) =
      basep.map (fun p => (p.pid, p.arrival, p.burst)) := by
    rw [scanFrom_snd, List.map_map]
    have e1 : ps2.map ((fun pa : SProc × Bool => (pa.1.pid, pa.1.arrival, pa.1.burst)) ∘
        (fun pa => (pa.1, pa.2 || c2 pa.1))) =
        ps2.map (fun pa => (pa.1.pid, pa.1.arrival, pa.1.burst)) :=
      List.map_congr_left (fun pa _ => rfl)
    rw [e1, hps2, map_set_of_eq (fun pa : SProc × Bool => (pa.1.pid, pa.1.arrival, pa.1.burst))
      s.ps cur X (sDflt, true) hcl rfl]
    exact h.frame
  have hcnt3 : ((scanFrom c2 0 ps2).2).countP (fun pa => pa.1.remaining == 0) =
      ps2.countP (fun pa => pa.1.remaining == 0) := by
    rw [scanFrom_snd, List.countP_map]
    exact List.countP_congr (fun pa _ => Iff.rfl)
  have hids : (scanFrom c2 0 ps2).1 =
      (List.range ps2.length).filter
        (fun j => !(ps2.getD j (sDflt, true)).2 && c2 (ps2.getD j (sDflt, true)).1) :=
    scanFrom_fst_zero c2 ps2
  have hidfacts : ∀ i ∈ (scanFrom c2 0 ps2).1, i < s.ps.length ∧ i ≠ cur ∧
      (s.ps.getD i (sDflt, true)).2 = false ∧ c2 (s.ps.getD i (sDflt, true)).1 = true := by
    intro i hi
    rw [hids] at hi
    have hi' := List.mem_filter.1 hi
    have hil : i < s.ps.length := by
      have := List.mem_range.1 hi'.1
      rw [hlen2] at this
      exact this
    have hcond := hi'.2
    have hflag2 : (ps2.getD i (sDflt, true)).2 = false := by
      cases hb : (ps2.getD i (sDflt, true)).2 with
      | false => rfl
      | true => rw [hb] at hcond; simp at hcond
    have hine : i ≠ cur := by
      intro he
      rw [he, hget2self] at hflag2
      have hFlf : Fl = false := hflag2
      rw [hFlf] at hcf
      cases hcf
    rw [hget2ne i hine] at hflag2 hcond
    have hcc : c2 (s.ps.getD i (sDflt, true)).1 = true := by
      rw [hflag2] at hcond; simpa using hcond
    exact ⟨hil, hine, hflag2, hcc⟩
  have hqrfacts : ∀ i ∈ qrest, i < s.ps.length ∧ i ≠ cur ∧
      0 < (s.ps.getD i (sDflt, true)).1.remaining ∧
      (s.ps.getD i (sDflt, true)).2 = true := by
    intro i hi
    obtain ⟨h1, h2, h3⟩ := h.queue_mem i (List.mem_cons_of_mem _ hi)
    exact ⟨h1, fun he => hcnq (he ▸ hi), h2, h3⟩
  by_cases hbr : 0 < rem2
  · rw [if_pos hbr]
    refine ⟨hframe3, ?_, ?_, ?_, ?_, ?_⟩
    · intro i hi
      rcases List.mem_append.1 hi with hi | hi
      · rcases List.mem_append.1 hi with hi | hi
        · obtain ⟨h1, hine, h2, h3⟩ := hqrfacts i hi
          refine ⟨by rw [hlen3]; exact h1, ?_, ?_⟩
          · rw [hget3fst, hget2ne i hine]; exact h2
          · rw [hget3snd, hget2ne i hine, h3, Bool.true_or]
        · obtain ⟨h1, hine, h2, h3⟩ := hidfacts i hi
          refine ⟨by rw [hlen3]; exact h1, ?_, ?_⟩
          · rw [hget3fst, hget2ne i hine]
            exact h.fresh i h1 h2
          · rw [hget3snd, hget2ne i hine, h2, h3]
            rfl
      · obtain rfl : i = cur := List.mem_singleton.1 hi
        refine ⟨by rw [hlen3]; exact hcl, ?_, ?_⟩
        · rw [hget3fst, hget2self]
          exact hbr
        · rw [hget3snd, hget2self]
          show (Fl || c2 X.1) = true
          rw [hcf, Bool.true_or]
    · intro j hj hflag
      rw [hlen3] at hj
      rw [hget3snd] at hflag
      have hflag2 : (ps2.getD j (sDflt, true)).2 = false :=
        (Bool.or_eq_false_iff.1 hflag).1
      have hjne : j ≠ cur := by
        intro he
        rw [he, hget2self] at hflag2
        have hFlf : Fl = false := hflag2
        rw [hFlf] at hcf
        cases hcf
      rw [hget3fst, hget2ne j hjne]
      rw [hget2ne j hjne] at hflag2
      exact h.fresh j hj hflag2
    · intro j hj
      rw [hlen3] at hj
      rw [hget3fst]
      by_cases hje : j = cur
      · subst hje
        rw [hget2self]
        have hiff : Pr.completion.isSome ↔ Pr.remaining = 0 := h.compl_iff j hcl0
        constructor
        · intro hs
          exfalso
          have hz := hiff.1 (show Pr.completion.isSome from hs)
          omega
        · intro hz
          exfalso
          have hz' : rem2 = 0 := hz
          omega
      · rw [hget2ne j hje]
        exact h.compl_iff j hj
    · show s.completed = _
      have hpeq : ((fun pa : SProc × Bool => pa.1.remaining == 0) X) =
          ((fun pa : SProc × Bool => pa.1.remaining == 0) (s.ps.getD cur (sDflt, true))) := by
        show (rem2 == 0) = (Pr.remaining == 0)
        have h1 : (rem2 == 0) = false := by
          simp only [beq_eq_false_iff_ne, ne_eq]
          omega
        have h2 : (Pr.remaining == 0) = false := by
          simp only [beq_eq_false_iff_ne, ne_eq]
          omega
        rw [h1, h2]
      rw [hcnt3, hps2, countP_set _ s.ps cur X (sDflt, true) hcl hpeq]
      exact h.count
    · show ((qrest ++ (scanFrom c2 0 ps2).1) ++ [cur]).Nodup
      rw [List.nodup_append, List.nodup_append]
      refine ⟨⟨hndq, ?_, ?_⟩, List.nodup_singleton _, ?_⟩
      · rw [hids]
        exact (List.nodup_range _).filter _
      · intro i hi hi'
        obtain ⟨_, _, _, h3⟩ := hqrfacts i hi
        obtain ⟨_, _, hf, _⟩ := hidfacts i hi'
        rw [h3] at hf
        cases hf
      · intro i hi hi'
        rcases List.mem_singleton.1 hi' with rfl
        rcases List.mem_append.1 hi with hi | hi
        · exact hcnq hi
        · obtain ⟨_, hine, _, _⟩ := hidfacts i hi
          exact hine rfl
  · rw [if_neg hbr]
    have hrem2z : rem2 = 0 := by omega
    have hcl3 : cur < ((scanFrom c2 0 ps2).2).length := by rw [hlen3]; exact hcl
    set pc := ((scanFrom c2 0 ps2).2).getD cur (sDflt, true) with hpc
    have hpc1 : pc.1 = X.1 := by
      rw [hpc, hget3fst, hget2self]
    have hpc2 : pc.2 = true := by
      rw [hpc, hget3snd, hget2self]
      show (Fl || c2 X.1) = true
      rw [hcf, Bool.true_or]
    have hpcr : pc.1.remaining = rem2 := by
      rw [hpc1]
    set Y4 : SProc × Bool := (({ pc.1 with
        completion := some (s.time + ef)
        turnaround := s.time + ef - pc.1.arrival
        waiting := s.time + ef - pc.1.arrival - pc.1.burst } : SProc), pc.2) with hY4
    refine ⟨?_, ?_, ?_, ?_, ?_, ?_⟩
    · rw [map_triple_set _ _ Y4 hcl3 rfl rfl rfl]
      exact hframe3
    · intro i hi
      rcases List.mem_append.1 hi with hi | hi
      · obtain ⟨h1, hine, h2, h3⟩ := hqrfacts i hi
        refine ⟨?_, ?_, ?_⟩
        · rw [List.length_set, hlen3]; exact h1
        · rw [getD_set_ne _ _ _ _ _ hine, hget3fst, hget2ne i hine]; exact h2
        · rw [getD_set_ne _ _ _ _ _ hine, hget3snd, hget2ne i hine, h3, Bool.true_or]
      · obtain ⟨h1, hine, h2, h3⟩ := hidfacts i hi
        refine ⟨?_, ?_, ?_⟩
        · rw [List.length_set, hlen3]; exact h1
        · rw [getD_set_ne _ _ _ _ _ hine, hget3fst, hget2ne i hine]
          exact h.fresh i h1 h2
        · rw [getD_set_ne _ _ _ _ _ hine, hget3snd, hget2ne i hine, h2, h3]
          rfl
    · intro j hj hflag
      rw [List.length_set, hlen3] at hj
      by_cases hje : j = cur
      · subst hje
        rw [getD_set_self _ _ _ _ hcl3] at hflag
        have hpcf : pc.2 = false := hflag
        rw [hpc2] at hpcf
        cases hpcf
      · rw [getD_set_ne _ _ _ _ _ hje] at hflag ⊢
        rw [hget3snd] at hflag
        have hflag2 : (ps2.getD j (sDflt, true)).2 = false :=
          (Bool.or_eq_false_iff.1 hflag).1
        rw [hget2ne j hje] at hflag2
        rw [hget3fst, hget2ne j hje]
        exact h.fresh j hj hflag2
    · intro j hj
      rw [List.length_set, hlen3] at hj
      by_cases hje : j = cur
      · subst hje
        rw [getD_set_self _ _ _ _ hcl3]
        constructor
        · intro _
          have hyr : Y4.1.remaining = rem2 := hpcr
          rw [hyr]
          exact hrem2z
        · intro _
          rfl
      · rw [getD_set_ne _ _ _ _ _ hje, hget3fst]
        rw [hget2ne j hje]
        exact h.compl_iff j hj
    · show s.completed + 1 = _
      rw [countP_set (fun pa : SProc × Bool => pa.1.remaining == 0) _ cur Y4
        (sDflt, true) hcl3 rfl]
      rw [hcnt3, hps2]
      have hxz : ((fun pa : SProc × Bool => pa.1.remaining == 0) X) = true := by
        show (rem2 == 0) = true
        simp [hrem2z]
      have hoz : ((fun pa : SProc × Bool => pa.1.remaining == 0)
          (s.ps.getD cur (sDflt, true))) = false := by
        show (Pr.remaining == 0) = false
        simp only [beq_eq_false_iff_ne, ne_eq]
        omega
      rw [countP_set_incr _ s.ps cur X (sDflt, true) hcl hxz hoz]
      rw [h.count]
    · show (qrest ++ (scanFrom c2 0 ps2).1).Nodup
      rw [List.nodup_append]
      refine ⟨hndq, ?_, ?_⟩
      · rw [hids]
        exact (List.nodup_range _).filter _
      · intro i hi hi'
        obtain ⟨_, _, _, h3⟩ := hqrfacts i hi
        obtain ⟨_, _, hf, _⟩ := hidfacts i hi'
        rw [h3] at hf
        cases hf

/-- One loop iteration preserves the invariant. -/
theorem rrStep_good (basep : List SProc) (q : Int) (s : RRState)
    (h : rrGood basep s) : rrGood basep (rrStep q s) := by
  have h1 := rrGood_after_scan basep s (fun pr => decide (pr.arrival ≤ s.time)) h
  unfold rrStep
  dsimp only
  cases hq : s.queue ++ (scanFrom (fun pr => decide (pr.arrival ≤ s.time)) 0 s.ps).1 with
  | nil =>
    refine ⟨h1.frame, ?_, h1.fresh, h1.compl_iff, h1.count, List.nodup_nil⟩
    intro i hi
    cases hi
  | cons cur qrest =>
    rw [hq] at h1
    exact rrExec_good basep q _ cur qrest h1

/-- The loop preserves the invariant, and on normal exit the completion
counter has reached the process count. -/
theorem rrLoop_good (basep : List SProc) (q : Int) (n : Nat) :
    ∀ (fuel : Nat) (s s' : RRState), rrGood basep s →
      rrLoop q n fuel s = some s' → rrGood basep s' ∧ ¬ s'.completed < n
  | 0, s, s' => by
    intro hg hrun
    rw [rrLoop] at hrun
    by_cases hc : s.completed < n
    · rw [if_pos hc] at hrun; cases hrun
    · rw [if_neg hc] at hrun
      obtain rfl := Option.some.inj hrun
      exact ⟨hg, hc⟩
  | fuel + 1, s, s' => by
    intro hg hrun
    rw [rrLoop] at hrun
    by_cases hc : s.completed < n
    · rw [if_pos hc] at hrun
      exact rrLoop_good basep q n fuel _ s' (rrStep_good basep q s hg) hrun
    · rw [if_neg hc] at hrun
      obtain rfl := Option.some.inj hrun
      exact ⟨hg, hc⟩

/-- The initial state of `round_robin` satisfies the invariant when every
process starts with positive remaining work and no completion time (as
the `Process` constructors of rr.py and sjf.py produce). -/
theorem rrInit_good (processes : List SProc)
    (hinit : ∀ p ∈ processes, 0 < p.remaining ∧ p.completion = none) :
    rrGood (List.insertionSort (fun a b : SProc => a.arrival ≤ b.arrival) processes)
      (rrInit processes) := by
  have hinit' : ∀ p ∈ List.insertionSort (fun a b : SProc => a.arrival ≤ b.arrival) processes,
      0 < p.remaining ∧ p.completion = none :=
    fun p hp => hinit p ((List.perm_insertionSort _ _).mem_iff.1 hp)
  refine ⟨?_, ?_, ?_, ?_, ?_, List.nodup_nil⟩
  · show (List.map _ _).map _ = _
    rw [List.map_map]
    exact List.map_congr_left (fun p _ => rfl)
  · intro i hi
    cases hi
  · intro j hj hflag
    have hmem := getD_mem_of_lt _ j ((sDflt, true) : SProc × Bool) hj
    obtain ⟨p, hp, he⟩ := List.mem_map.1 hmem
    rw [← he]
    exact (hinit' p hp).1
  · intro j hj
    have hmem := getD_mem_of_lt _ j ((sDflt, true) : SProc × Bool) hj
    obtain ⟨p, hp, he⟩ := List.mem_map.1 hmem
    rw [← he]
    show p.completion.isSome ↔ p.remaining = 0
    obtain ⟨hr, hcn⟩ := hinit' p hp
    rw [hcn]
    constructor
    · intro hs; cases hs
    · intro hz; omega
  · show 0 = List.countP (fun pa => pa.1.remaining == 0)
      ((List.insertionSort (fun a b : SProc => a.arrival ≤ b.arrival) processes).map
        (fun p => (p, false)))
    rw [List.countP_map]
    symm
    rw [List.countP_eq_zero]
    intro p hp
    show ¬ (p.remaining == 0) = true
    simp only [beq_iff_eq]
    have := (hinit' p hp).1
    omega

/-- When every process has zero remaining time, a loop iteration keeps
all remaining times zero and only appends zero-length Gantt segments. -/
theorem rrStep_zero (q : Int) (hq : 0 ≤ q) (s : RRState)
    (hz : ∀ pa ∈ s.ps, pa.1.remaining = 0)
    (hg : ∀ seg ∈ s.gantt, seg.2.2 = seg.2.1) :
    (∀ pa ∈ (rrStep q s).ps, pa.1.remaining = 0) ∧
    (∀ seg ∈ (rrStep q s).gantt, seg.2.2 = seg.2.1) := by
  have hz1 : ∀ pa ∈ (scanFrom (fun pr => decide (pr.arrival ≤ s.time)) 0 s.ps).2,
      pa.1.remaining = 0 := by
    rw [scanFrom_snd]
    intro pa hpa
    obtain ⟨pb, hpb, he⟩ := List.mem_map.1 hpa
    rw [← he]
    exact hz pb hpb
  unfold rrStep
  dsimp only
  cases hq1 : s.queue ++ (scanFrom (fun pr => decide (pr.arrival ≤ s.time)) 0 s.ps).1 with
  | nil => exact ⟨hz1, hg⟩
  | cons cur qrest =>
    unfold rrExec
    dsimp only
    set ps1 := (scanFrom (fun pr => decide (pr.arrival ≤ s.time)) 0 s.ps).2 with hps1
    set Pr := (ps1.getD cur (sDflt, true)).1 with hPr
    set Fl := (ps1.getD cur (sDflt, true)).2 with hFl
    set ef := min Pr.remaining q with hef
    set X : SProc × Bool := ({ Pr with remaining := Pr.remaining - ef }, Fl) with hX
    set ps2 := ps1.set cur X with hps2
    set c2 : SProc → Bool :=
      fun pr => decide (s.time < pr.arrival) && decide (pr.arrival ≤ s.time + ef) with hc2
    have hprem : Pr.remaining = 0 := by
      by_cases hcl : cur < ps1.length
      · exact hz1 _ (getD_mem_of_lt _ _ _ hcl)
      · rw [hPr, List.getD_eq_getElem?_getD, List.getElem?_eq_none (le_of_not_lt hcl)]
        rfl
    have hefz : ef = 0 := by
      rw [hef, hprem]
      exact min_eq_left hq
    have hbr : ¬ 0 < Pr.remaining - ef := by
      rw [hprem, hefz]
      omega
    rw [if_neg hbr]
    have hz2 : ∀ pa ∈ ps2, pa.1.remaining = 0 := by
      intro pa hpa
      rcases List.mem_or_eq_of_mem_set hpa with hpa | hpa
      · exact hz1 pa hpa
      · rw [hpa]
        show Pr.remaining - ef = 0
        rw [hprem, hefz]
        rfl
    have hz3 : ∀ pa ∈ (scanFrom c2 0 ps2).2, pa.1.remaining = 0 := by
      rw [scanFrom_snd]
      intro pa hpa
      obtain ⟨pb, hpb, he⟩ := List.mem_map.1 hpa
      rw [← he]
      exact hz2 pb hpb
    have hpcz : (((scanFrom c2 0 ps2).2).getD cur (sDflt, true)).1.remaining = 0 := by
      by_cases hcl : cur < ((scanFrom c2 0 ps2).2).length
      · exact hz3 _ (getD_mem_of_lt _ _ _ hcl)
      · rw [List.getD_eq_getElem?_getD, List.getElem?_eq_none (le_of_not_lt hcl)]
        rfl
    constructor
    · intro pa hpa
      rcases List.mem_or_eq_of_mem_set hpa with hpa | hpa
      · exact hz3 pa hpa
      · rw [hpa]
        exact hpcz
    · intro seg hseg
      rcases List.mem_append.1 hseg with hseg | hseg
      · exact hg seg hseg
      · rcases List.mem_singleton.1 hseg with rfl
        show s.time + ef = s.time
        rw [hefz, add_zero]

/-- A whole run started with all remaining times zero produces only
zero-length Gantt segments. -/
theorem rrLoop_zero (q : Int) (hq : 0 ≤ q) (n : Nat) :
    ∀ (fuel : Nat) (s s' : RRState),
      (∀ pa ∈ s.ps, pa.1.remaining = 0) →
      (∀ seg ∈ s.gantt, seg.2.2 = seg.2.1) →
      rrLoop q n fuel s = some s' → ∀ seg ∈ s'.gantt, seg.2.2 = seg.2.1
  | 0, s, s' => by
    intro hz hg hrun
    rw [rrLoop] at hrun
    by_cases hc : s.completed < n
    · rw [if_pos hc] at hrun; cases hrun
    · rw [if_neg hc] at hrun
      obtain rfl := Option.some.inj hrun
      exact hg
  | fuel + 1, s, s' => by
    intro hz hg hrun
    rw [rrLoop] at hrun
    by_cases hc : s.completed < n
    · rw [if_pos hc] at hrun
      obtain ⟨hz', hg'⟩ := rrStep_zero q hq s hz hg
      exact rrLoop_zero q hq n fuel _ s' hz' hg' hrun
    · rw [if_neg hc] at hrun
      obtain rfl := Option.some.inj hrun
      exact hg

/-- With every completion time already set, `sjf_non_preemptive`'s ready
queue is empty forever, so the loop only idles and exhausts any fuel. -/
theorem sjfNPLoop_stuck (procs : List SProc)
    (hc : ∀ p ∈ procs, p.completion.isSome = true) (h0 : 0 < procs.length) :
    ∀ (fuel : Nat) (t : Int) (gantt : List (String × Int × Int)),
      sjfNPLoop fuel procs t 0 gantt = none
  | 0, t, gantt => by
    rw [sjfNPLoop]
    rw [if_pos (by simpa using h0)]
  | fuel + 1, t, gantt => by
    rw [sjfNPLoop]
    rw [if_pos (by simpa using h0)]
    have havail : ((List.range procs.length).filter
        (fun i => decide ((procs.getD i sDflt).arrival ≤ t) &&
          ((procs.getD i sDflt).completion == none))) = [] := by
      rw [List.filter_eq_nil_iff]
      intro i hi
      have hil : i < procs.length := List.mem_range.1 hi
      have hcs := hc _ (getD_mem_of_lt procs i sDflt hil)
      obtain ⟨x, hx⟩ := Option.isSome_iff_exists.1 hcs
      rw [hx]
      simp
    rw [havail]
    exact sjfNPLoop_stuck procs hc h0 fuel (t + 1) gantt

/-- With every remaining time zero, `sjf_preemptive`'s ready queue is
empty forever, so the loop only idles and exhausts any fuel. -/
theorem sjfPLoop_stuck (procs : List SProc)
    (hr : ∀ p ∈ procs, p.remaining = 0) (h0 : 0 < procs.length) :
    ∀ (fuel : Nat) (t : Int) (current : Option Nat) (gantt : List (String × Int)),
      sjfPLoop fuel procs t 0 current gantt = none
  | 0, t, current, gantt => by
    rw [sjfPLoop]
    rw [if_pos (by simpa using h0)]
  | fuel + 1, t, current, gantt => by
    rw [sjfPLoop]
    rw [if_pos (by simpa using h0)]
    have havail : ((List.range procs.length).filter
        (fun i => decide ((procs.getD i sDflt).arrival ≤ t) &&
          decide (0 < (procs.getD i sDflt).remaining))) = [] := by
      rw [List.filter_eq_nil_iff]
      intro i hi
      have hil : i < procs.length := List.mem_range.1 hi
      have hrz := hr _ (getD_mem_of_lt procs i sDflt hil)
      rw [hrz]
      simp
    rw [havail]
    exact sjfPLoop_stuck procs hr h0 fuel (t + 1) current gantt

/-- C10: `round_robin` destructively consumes its input.  After a run on
processes initialised as by the `Process` constructors (remaining equal
to a positive burst, no completion time) with a positive quantum, the
caller's list has been sorted in place by arrival time (identity fields
in sorted order), every process object has `remaining == 0` and a set
completion time; re-running `round_robin` on the same objects yields only
zero-length Gantt segments, and handing them to either sjf.py scheduler
loops forever (every fuel bound is exhausted). -/
theorem C10_round_robin_destructive_consumption
    (processes : List SProc) (q : Int) (fuel : Nat)
    (hinit : ∀ p ∈ processes, p.remaining = p.burst ∧ 0 < p.burst ∧ p.completion = none)
    (hq : 0 < q)
    (g : List (String × Int × Int)) (final : List SProc)
    (hrun : round_robin fuel processes q = some (g, final)) :
    (final.map (fun p => (p.pid, p.arrival, p.burst)) =
      (List.insertionSort (fun a b : SProc => a.arrival ≤ b.arrival) processes).map
        (fun p => (p.pid, p.arrival, p.burst))) ∧
    (∀ p ∈ final, p.remaining = 0) ∧
    (∀ p ∈ final, p.completion.isSome = true) ∧
    (∀ fuel2 g2 final2, round_robin fuel2 final q = some (g2, final2) →
      ∀ seg ∈ g2, seg.2.2 = seg.2.1) ∧
    (final ≠ [] → ∀ fuel2, sjf_non_preemptive fuel2 final = none ∧
      sjf_preemptive fuel2 final = none) := by
  have hinit' : ∀ p ∈ processes, 0 < p.remaining ∧ p.completion = none := by
    intro p hp
    obtain ⟨h1, h2, h3⟩ := hinit p hp
    exact ⟨by rw [h1]; exact h2, h3⟩
  unfold round_robin at hrun
  obtain ⟨s', hs', hout⟩ := Option.map_eq_some'.1 hrun
  injection hout with hout1 hout2
  subst hout1
  subst hout2
  obtain ⟨hgood, hdone⟩ := rrLoop_good
    (List.insertionSort (fun a b : SProc => a.arrival ≤ b.arrival) processes) q
    processes.length fuel (rrInit processes) s' (rrInit_good processes hinit') hs'
  have hslen : s'.ps.length = processes.length := by
    have hfl := congrArg List.length hgood.frame
    rw [List.length_map, List.length_map] at hfl
    rw [hfl]
    exact (List.perm_insertionSort _ _).length_eq
  have hcnt : s'.ps.countP (fun pa => pa.1.remaining == 0) = s'.ps.length := by
    have hle := List.countP_le_length (l := s'.ps) (p := fun pa => pa.1.remaining == 0)
    have hge : s'.ps.length ≤ s'.ps.countP (fun pa => pa.1.remaining == 0) := by
      rw [hslen]
      rw [← hgood.count]
      omega
    omega
  have hall : ∀ pa ∈ s'.ps, (pa.1.remaining == 0) = true := List.countP_eq_length.1 hcnt
  have hrem0 : ∀ p ∈ s'.ps.map Prod.fst, p.remaining = 0 := by
    intro p hp
    obtain ⟨pa, hpa, he⟩ := List.mem_map.1 hp
    have := hall pa hpa
    rw [he] at this
    simpa using this
  have hcompl : ∀ p ∈ s'.ps.map Prod.fst, p.completion.isSome = true := by
    intro p hp
    obtain ⟨pa, hpa, he⟩ := List.mem_map.1 hp
    obtain ⟨j, hj, hget⟩ := List.mem_iff_getElem.1 hpa
    have hgd : s'.ps.getD j (sDflt, true) = pa := by
      rw [List.getD_eq_getElem?_getD, List.getElem?_eq_getElem hj]
      simpa using hget
    have hiff := hgood.compl_iff j hj
    rw [hgd] at hiff
    have hr : pa.1.remaining = 0 := by
      have := hall pa hpa
      simpa using this
    rw [he] at hiff hr
    exact hiff.2 hr
  refine ⟨?_, hrem0, hcompl, ?_, ?_⟩
  · rw [List.map_map]
    calc s'.ps.map ((fun p : SProc => (p.pid, p.arrival, p.burst)) ∘ Prod.fst)
        = s'.ps.map (fun pa => (pa.1.pid, pa.1.arrival, pa.1.burst)) :=
          List.map_congr_left (fun pa _ => rfl)
      _ = _ := hgood.frame
  · intro fuel2 g2 final2 hrun2 seg hseg
    unfold round_robin at hrun2
    obtain ⟨s2, hs2, hout2⟩ := Option.map_eq_some'.1 hrun2
    injection hout2 with hg2 hf2
    subst hg2
    have hz0 : ∀ pa ∈ (rrInit (s'.ps.map Prod.fst)).ps, pa.1.remaining = 0 := by
      intro pa hpa
      obtain ⟨p, hp, he⟩ := List.mem_map.1 hpa
      rw [← he]
      exact hrem0 p ((List.perm_insertionSort _ _).mem_iff.1 hp)
    exact rrLoop_zero q (le_of_lt hq) (s'.ps.map Prod.fst).length fuel2
      (rrInit (s'.ps.map Prod.fst)) s2 hz0 (by intro seg2 h2; cases h2) hs2 seg hseg
  · intro hne fuel2
    have h0 : 0 < (s'.ps.map Prod.fst).length := List.length_pos.2 hne
    constructor
    · exact sjfNPLoop_stuck _ hcompl h0 fuel2 0 []
    · exact sjfPLoop_stuck _ hrem0 h0 fuel2 0 none []

/-- Concrete input for the witness of C10: the three processes of the
module examples in src/rr.py / src/sjf.py, run with quantum 3. -/
def rrC10In : List SProc := [mkSProc "P1" 0 8, mkSProc "P2" 1 4, mkSProc "P3" 2 2]

/-- The Gantt chart `round_robin` produces on `rrC10In` with quantum 3. -/
def rrC10Gantt : List (String × Int × Int) :=
  [("P1", 0, 3), ("P2", 3, 6), ("P3", 6, 8), ("P1", 8, 11), ("P2", 11, 12), ("P1", 12, 14)]

/-- The final process list `round_robin` produces on `rrC10In` with quantum 3:
every `remaining` is 0 and every `completion` is set. -/
def rrC10Final : List SProc :=
  [ { pid := "P1", arrival := 0, burst := 8, remaining := 0, completion := some 14
      turnaround := 14, waiting := 6 }
  , { pid := "P2", arrival := 1, burst := 4, remaining := 0, completion := some 12
      turnaround := 11, waiting := 7 }
  , { pid := "P3", arrival := 2, burst := 2, remaining := 0, completion := some 8
      turnaround := 6, waiting := 4 } ]

/-- Witness for C10 at the concrete input `rrC10In` with quantum 3 and fuel 40. -/
theorem C10_witness :
    ((∀ p ∈ rrC10In, p.remaining = p.burst ∧ 0 < p.burst ∧ p.completion = none) ∧
     (0 : Int) < 3 ∧
     round_robin 40 rrC10In 3 = some (rrC10Gantt, rrC10Final)) ∧
    ((rrC10Final.map (fun p => (p.pid, p.arrival, p.burst)) =
      (List.insertionSort (fun a b : SProc => a.arrival ≤ b.arrival) rrC10In).map
        (fun p => (p.pid, p.arrival, p.burst))) ∧
    (∀ p ∈ rrC10Final, p.remaining = 0) ∧
    (∀ p ∈ rrC10Final, p.completion.isSome = true) ∧
    (∀ fuel2 g2 final2, round_robin fuel2 rrC10Final 3 = some (g2, final2) →
      ∀ seg ∈ g2, seg.2.2 = seg.2.1) ∧
    (rrC10Final ≠ [] → ∀ fuel2, sjf_non_preemptive fuel2 rrC10Final = none ∧
      sjf_preemptive fuel2 rrC10Final = none)) :=
  ⟨⟨by decide, by decide, by decide⟩,
    C10_round_robin_destructive_consumption rrC10In 3 40 (by decide) (by decide)
      rrC10Gantt rrC10Final (by decide)⟩
/-! ## C7 — Round Robin with quantum at least every burst vs FCFS -/

/-- Forget an rr.py process object down to an fcfs_scheduling input dict. -/
def sprocToF (p : SProc) : FProcIn :=
  { pid := p.pid, arrival_time := p.arrival, burst_time := p.burst }

/-- The FCFS clock recurrence on the arrival-sorted list `b`: `c7ct b k`
is the value of `current_time` in fcfs_scheduling after the first `k`
processes have run. -/
def c7ct (b : List SProc) : Nat → Int
  | 0 => 0
  | k + 1 => max (c7ct b k) ((b.getD k sDflt).arrival) + (b.getD k sDflt).burst

/-- The FCFS start time of the `k`-th process of `b`. -/
def c7start (b : List SProc) (k : Nat) : Int :=
  max (c7ct b k) ((b.getD k sDflt).arrival)

/-- The `k`-th process of `b` as round_robin completes it when the slice
runs the whole burst. -/
def c7done (b : List SProc) (k : Nat) : SProc :=
  { b.getD k sDflt with
      remaining := 0
      completion := some (c7ct b (k + 1))
      turnaround := c7ct b (k + 1) - (b.getD k sDflt).arrival
      waiting := (c7ct b (k + 1) - (b.getD k sDflt).arrival) - (b.getD k sDflt).burst }

/-- The `k`-th process of `b` as fcfs_scheduling completes it. -/
def c7fproc (b : List SProc) (k : Nat) : FProc :=
  { pid := (b.getD k sDflt).pid
    arrival_time := (b.getD k sDflt).arrival
    burst_time := (b.getD k sDflt).burst
    start_time := c7start b k
    completion_time := c7ct b (k + 1)
    waiting_time := c7start b k - (b.getD k sDflt).arrival
    turnaround_time := c7ct b (k + 1) - (b.getD k sDflt).arrival }

/-- Number of processes of `b` that have arrived by time `T`. -/
def aOf (b : List SProc) (T : Int) : Nat :=
  b.countP (fun p => decide (p.arrival ≤ T))

/-- Standing hypotheses on the arrival-sorted base list: sorted arrivals,
fresh process objects with positive bursts and nonnegative arrivals, and
a quantum at least every burst. -/
structure C7Base (b : List SProc) (q : Int) : Prop where
  hmono : ∀ i j, i < j → j < b.length →
    (b.getD i sDflt).arrival ≤ (b.getD j sDflt).arrival
  hfresh : ∀ i, i < b.length →
    (b.getD i sDflt).remaining = (b.getD i sDflt).burst ∧
      1 ≤ (b.getD i sDflt).burst ∧ 0 ≤ (b.getD i sDflt).arrival
  hq : ∀ i, i < b.length → (b.getD i sDflt).burst ≤ q

/-- Loop invariant of the quantum-dominates-burst run: after `k`
completions the round_robin state agrees with the FCFS schedule of `b` on
its first `k` processes, the untouched suffix is still fresh with arrival
flags reflecting the scan threshold `T`, and the queue holds exactly the
arrived-but-unfinished indices in order. -/
structure C7Inv (b : List SProc) (k : Nat) (T : Int) (s : RRState) : Prop where
  hlen : s.ps.length = b.length
  hk : k ≤ b.length
  hT : T = s.time ∨ T = s.time - 1
  hdone : ∀ i, i < k → s.ps.getD i (sDflt, true) = (c7done b i, true)
  hpend : ∀ i, k ≤ i → i < b.length →
    s.ps.getD i (sDflt, true) =
      (b.getD i sDflt, decide ((b.getD i sDflt).arrival ≤ T))
  harr : ∀ i, i < k → (b.getD i sDflt).arrival ≤ T
  hka : k ≤ aOf b T
  hqueue : s.queue = List.range' k (aOf b T - k)
  htime1 : k < aOf b T → s.time = c7start b k
  htime2 : aOf b T ≤ k → c7ct b k ≤ s.time ∧
    (k < b.length → s.time ≤ c7start b k)
  hgantt : s.gantt = (List.range k).map
    (fun i => ((b.getD i sDflt).pid, c7start b i, c7ct b (i + 1)))
  hcompleted : s.completed = k

theorem c7_if_max (t a : Int) : (if t < a then a else t) = max t a := by
  rcases le_or_lt a t with h | h
  · rw [if_neg (not_lt.2 h), max_eq_left h]
  · rw [if_pos h, max_eq_right (le_of_lt h)]

theorem aOf_le_length (b : List SProc) (T : Int) : aOf b T ≤ b.length :=
  List.countP_le_length _

theorem aOf_mono (b : List SProc) {T T' : Int} (h : T ≤ T') : aOf b T ≤ aOf b T' := by
  apply List.countP_mono_left
  intro p _ hp
  exact decide_eq_true (le_trans (of_decide_eq_true hp) h)

/-- `countP` counted over positions. -/
theorem countP_eq_length_filter_range {α : Type} (d : α) (p : α → Bool) :
    ∀ l : List α, l.countP p =
      ((List.range l.length).filter (fun j => p (l.getD j d))).length
  | [] => rfl
  | x :: rest => by
    have ih := countP_eq_length_filter_range d p rest
    have hrange : List.range (x :: rest).length =
        0 :: (List.range rest.length).map Nat.succ := by
      simp [List.range_succ_eq_map]
    rw [hrange, List.filter_cons]
    have hfm : ((List.range rest.length).map Nat.succ).filter
          (fun j => p ((x :: rest).getD j d)) =
        ((List.range rest.length).filter (fun j => p (rest.getD j d))).map Nat.succ := by
      rw [filter_map_comm]
      congr 1
    rw [hfm, List.countP_cons]
    simp only [List.getD_cons_zero, List.length_map]
    by_cases hx : p x
    · simp [hx, ih]
    · simp [hx, ih]

/-- In a list of downward-closed positions, position `i` satisfies the
predicate exactly when `i` is below the count of satisfying positions. -/
theorem filter_range_downward_iff (P : Nat → Prop) [DecidablePred P] :
    ∀ n : Nat, (∀ i j, i < j → j < n → P j → P i) →
      ∀ i, i < n → (P i ↔ i < ((List.range n).filter (fun j => decide (P j))).length)
  | 0, _, i, hi => absurd hi (Nat.not_lt_zero i)
  | n + 1, hdc, i, hi => by
    have ih := filter_range_downward_iff P n
      (fun a c hac hcn hPc => hdc a c hac (Nat.lt_succ_of_lt hcn) hPc)
    have hlenle : ((List.range n).filter (fun j => decide (P j))).length ≤ n := by
      calc ((List.range n).filter (fun j => decide (P j))).length
          ≤ (List.range n).length := List.length_filter_le _ _
        _ = n := List.length_range n
    rw [List.range_succ, List.filter_append]
    by_cases hPn : P n
    · have hall : (List.range n).filter (fun j => decide (P j)) = List.range n := by
        apply List.filter_eq_self.2
        intro j hj
        exact decide_eq_true (hdc j n (List.mem_range.1 hj) (Nat.lt_succ_self n) hPn)
      rw [hall]
      simp only [List.filter_cons, List.filter_nil]
      rw [if_pos (decide_eq_true hPn)]
      simp only [List.length_append, List.length_range, List.length_cons,
        List.length_nil]
      constructor
      · intro _; omega
      · intro _
        rcases Nat.lt_succ_iff_lt_or_eq.1 hi with h | h
        · exact hdc i n h (Nat.lt_succ_self n) hPn
        · rw [h]; exact hPn
    · have htail : (List.filter (fun j => decide (P j)) [n]) = [] := by
        simp [hPn]
      rw [htail, List.append_nil]
      rcases Nat.lt_succ_iff_lt_or_eq.1 hi with h | h
      · exact ih i h
      · rw [h]
        constructor
        · intro hc; exact absurd hc hPn
        · intro hc; omega

/-- On the arrival-sorted list `b`, the processes arrived by `T` are
exactly the first `aOf b T` positions. -/
theorem arr_iff_lt_aOf {b : List SProc} {q : Int} (hB : C7Base b q) (T : Int)
    {i : Nat} (hi : i < b.length) :
    (b.getD i sDflt).arrival ≤ T ↔ i < aOf b T := by
  have h := filter_range_downward_iff (fun j => (b.getD j sDflt).arrival ≤ T)
    b.length
    (fun a c hac hcn hPc => le_trans (hB.hmono a c hac hcn) hPc) i hi
  rw [aOf, countP_eq_length_filter_range sDflt]
  exact h

theorem c7ct_lt_succ {b : List SProc} {q : Int} (hB : C7Base b q)
    {k : Nat} (hk : k < b.length) : c7ct b k < c7ct b (k + 1) := by
  have h1 := (hB.hfresh k hk).2.1
  show c7ct b k < max (c7ct b k) ((b.getD k sDflt).arrival) + (b.getD k sDflt).burst
  have h2 : c7ct b k ≤ max (c7ct b k) ((b.getD k sDflt).arrival) := le_max_left _ _
  omega

theorem c7start_lt_succ {b : List SProc} {q : Int} (hB : C7Base b q)
    {k : Nat} (hk : k < b.length) : c7start b k < c7ct b (k + 1) := by
  have h1 := (hB.hfresh k hk).2.1
  show c7start b k < max (c7ct b k) ((b.getD k sDflt).arrival) + (b.getD k sDflt).burst
  rw [c7start]
  omega

theorem c7ct_mono {b : List SProc} {q : Int} (hB : C7Base b q) :
    ∀ {k m : Nat}, k ≤ m → m ≤ b.length → c7ct b k ≤ c7ct b m := by
  intro k m
  induction m with
  | zero => intro hkm _; have : k = 0 := Nat.le_zero.1 hkm; rw [this]
  | succ m ih =>
    intro hkm hm
    rcases Nat.le_succ_iff.1 hkm with h | h
    · have hmb : m < b.length := hm
      exact le_trans (ih h (le_of_lt hmb)) (le_of_lt (c7ct_lt_succ hB hmb))
    · rw [h]

theorem filter_range_interval (n a c : Nat) (hac : a ≤ c) (hcn : c ≤ n) :
    (List.range n).filter (fun i => decide (a ≤ i) && decide (i < c)) =
      List.range' a (c - a) := by
  have hsplit : List.range n =
      List.range' 0 a ++ List.range' a (c - a) ++ List.range' c (n - c) := by
    rw [List.range_eq_range']
    have h1 : List.range' 0 a ++ List.range' a (c - a) = List.range' 0 c := by
      have := List.range'_append 0 a (c - a) 1
      simp only [Nat.one_mul, Nat.zero_add] at this
      rw [this]
      congr 1
      omega
    rw [h1]
    have h2 := List.range'_append 0 c (n - c) 1
    simp only [Nat.one_mul, Nat.zero_add] at h2
    rw [h2]
    congr 1
    omega
  rw [hsplit, List.filter_append, List.filter_append]
  have hfirst : (List.range' 0 a).filter (fun i => decide (a ≤ i) && decide (i < c)) = [] := by
    apply List.filter_eq_nil_iff.2
    intro x hx
    have := List.mem_range'_1.1 hx
    simp only [Bool.and_eq_true, decide_eq_true_eq]
    omega
  have hmid : (List.range' a (c - a)).filter (fun i => decide (a ≤ i) && decide (i < c)) =
      List.range' a (c - a) := by
    apply List.filter_eq_self.2
    intro x hx
    have := List.mem_range'_1.1 hx
    simp only [Bool.and_eq_true, decide_eq_true_eq]
    omega
  have hlast : (List.range' c (n - c)).filter (fun i => decide (a ≤ i) && decide (i < c)) = [] := by
    apply List.filter_eq_nil_iff.2
    intro x hx
    have := List.mem_range'_1.1 hx
    simp only [Bool.and_eq_true, decide_eq_true_eq]
    omega
  rw [hfirst, hmid, hlast, List.append_nil, List.nil_append]

/-- The top-of-loop arrival scan moves the flag threshold up to the
current clock value and appends exactly the newly arrived indices
(`[aOf b T, aOf b s.time)`) to the queue. -/
theorem c7_scan {b : List SProc} {q : Int} (hB : C7Base b q)
    {k : Nat} {T : Int} {s : RRState} (hI : C7Inv b k T s) :
    C7Inv b k s.time
      { s with ps := (scanFrom (fun pr => decide (pr.arrival ≤ s.time)) 0 s.ps).2
               queue := s.queue ++ (scanFrom (fun pr => decide (pr.arrival ≤ s.time)) 0 s.ps).1 } := by
  have hTle : T ≤ s.time := by rcases hI.hT with h | h <;> omega
  have haa : aOf b T ≤ aOf b s.time := aOf_mono b hTle
  refine ⟨?_, hI.hk, Or.inl rfl, ?_, ?_, ?_, ?_, ?_, ?_, ?_, hI.hgantt, hI.hcompleted⟩
  · show ((scanFrom _ 0 s.ps).2).length = b.length
    rw [scanFrom_snd]
    simp [hI.hlen]
  · intro i hik
    show ((scanFrom _ 0 s.ps).2).getD i (sDflt, true) = _
    rw [scan_getD, hI.hdone i hik]
    show (c7done b i, true || _) = _
    rw [Bool.true_or]
  · intro i hki hin
    show ((scanFrom _ 0 s.ps).2).getD i (sDflt, true) = _
    rw [scan_getD, hI.hpend i hki hin]
    show (b.getD i sDflt,
        decide ((b.getD i sDflt).arrival ≤ T) || decide ((b.getD i sDflt).arrival ≤ s.time)) = _
    by_cases h : (b.getD i sDflt).arrival ≤ T
    · rw [decide_eq_true h, decide_eq_true (le_trans h hTle), Bool.true_or]
    · rw [decide_eq_false h, Bool.false_or]
  · intro i hik
    exact le_trans (hI.harr i hik) hTle
  · exact le_trans hI.hka haa
  · show s.queue ++ (scanFrom _ 0 s.ps).1 = _
    rw [hI.hqueue, scanFrom_fst_zero]
    have hfc : ∀ j ∈ List.range s.ps.length,
        (!(s.ps.getD j (sDflt, true)).2 &&
          decide ((s.ps.getD j (sDflt, true)).1.arrival ≤ s.time)) =
        (decide (aOf b T ≤ j) && decide (j < aOf b s.time)) := by
      intro j hj
      have hjn : j < b.length := by rw [← hI.hlen]; exact List.mem_range.1 hj
      by_cases hjk : j < k
      · rw [hI.hdone j hjk]
        have hjaT : j < aOf b T := lt_of_lt_of_le hjk hI.hka
        rw [decide_eq_false (Nat.not_le.2 hjaT)]
        simp only [Bool.not_true, Bool.false_and]
      · rw [hI.hpend j (Nat.not_lt.1 hjk) hjn]
        show (!decide ((b.getD j sDflt).arrival ≤ T) &&
            decide ((b.getD j sDflt).arrival ≤ s.time)) = _
        have e1 : decide ((b.getD j sDflt).arrival ≤ T) = decide (j < aOf b T) :=
          decide_eq_decide.2 (arr_iff_lt_aOf hB T hjn)
        have e2 : decide ((b.getD j sDflt).arrival ≤ s.time) =
            decide (j < aOf b s.time) :=
          decide_eq_decide.2 (arr_iff_lt_aOf hB s.time hjn)
        have e3 : (!decide (j < aOf b T)) = decide (aOf b T ≤ j) := by
          rw [← decide_not]
          exact decide_eq_decide.2 Nat.not_lt
        rw [e1, e2, e3]
    rw [List.filter_congr hfc, hI.hlen,
      filter_range_interval b.length (aOf b T) (aOf b s.time) haa (aOf_le_length _ _)]
    have happ := List.range'_append k (aOf b T - k) (aOf b s.time - aOf b T) 1
    simp only [Nat.one_mul] at happ
    have h1 : k + (aOf b T - k) = aOf b T := by
      have := hI.hka
      omega
    rw [h1] at happ
    rw [happ]
    congr 1
    omega
  · intro h
    by_cases h2 : k < aOf b T
    · exact hI.htime1 h2
    · have haTk : aOf b T ≤ k := Nat.not_lt.1 h2
      obtain ⟨hct, hub⟩ := hI.htime2 haTk
      have hkn : k < b.length := lt_of_lt_of_le h (aOf_le_length _ _)
      have harrk : (b.getD k sDflt).arrival ≤ s.time :=
        (arr_iff_lt_aOf hB s.time hkn).2 h
      exact le_antisymm (hub hkn) (max_le hct harrk)
  · intro h
    exact hI.htime2 (le_trans haa h)

/-- Executing the queue-head slice when the quantum covers the whole
burst completes process `k` exactly as FCFS schedules it: the Gantt
segment is `(pid, c7start, c7ct)`, the metrics are the FCFS metrics, and
the arrivals during the slice are appended to the queue in index order. -/
theorem c7_exec {b : List SProc} {q : Int} (hB : C7Base b q)
    {k : Nat} {s : RRState} (hI : C7Inv b k s.time s) (hka2 : k < aOf b s.time) :
    C7Inv b (k + 1) (c7ct b (k + 1))
      (rrExec q s k (List.range' (k + 1) (aOf b s.time - (k + 1)))) ∧
    (rrExec q s k (List.range' (k + 1) (aOf b s.time - (k + 1)))).time = c7ct b (k + 1) := by
  have hkn : k < b.length := lt_of_lt_of_le hka2 (aOf_le_length _ _)
  have hpendk := hI.hpend k le_rfl hkn
  have harrk : (b.getD k sDflt).arrival ≤ s.time :=
    (arr_iff_lt_aOf hB s.time hkn).2 hka2
  have htime : s.time = c7start b k := hI.htime1 hka2
  obtain ⟨hrm, hb1, ha0⟩ := hB.hfresh k hkn
  have hqk := hB.hq k hkn
  have hct1 : c7ct b (k + 1) = c7start b k + (b.getD k sDflt).burst := by
    simp only [c7ct, c7start]
  have ht2 : s.time + (b.getD k sDflt).burst = c7ct b (k + 1) := by
    rw [htime, hct1]
  have htlt : s.time < c7ct b (k + 1) := by
    rw [← ht2]; omega
  have hflagt : decide ((b.getD k sDflt).arrival ≤ s.time) = true := decide_eq_true harrk
  have hkl : k < s.ps.length := by rw [hI.hlen]; exact hkn
  unfold rrExec
  dsimp only
  rw [hpendk]
  dsimp only
  rw [hflagt, hrm, min_eq_left hqk, sub_self, ht2, if_neg (lt_irrefl 0)]
  set X : SProc × Bool := ({ b.getD k sDflt with remaining := 0 }, true) with hX
  set c2 : SProc → Bool :=
    fun pr => decide (s.time < pr.arrival) && decide (pr.arrival ≤ c7ct b (k + 1)) with hc2
  set ps2 := s.ps.set k X with hps2
  have hlen2 : ps2.length = b.length := by
    rw [hps2, List.length_set, hI.hlen]
  have hget2self : ps2.getD k (sDflt, true) = X := by
    rw [hps2]; exact getD_set_self _ _ _ _ hkl
  have hget2ne : ∀ j, j ≠ k → ps2.getD j (sDflt, true) = s.ps.getD j (sDflt, true) :=
    fun j hj => by rw [hps2]; exact getD_set_ne _ _ _ _ _ hj
  have hlen3 : ((scanFrom c2 0 ps2).2).length = b.length := by
    rw [scanFrom_snd, List.length_map, hlen2]
  have hpc : ((scanFrom c2 0 ps2).2).getD k (sDflt, true) = (X.1, true) := by
    rw [scan_getD, hget2self]
    show (X.1, true || _) = _
    rw [Bool.true_or]
  rw [hpc]
  dsimp only
  have hYdone : ({ X.1 with completion := some (c7ct b (k + 1)), turnaround := c7ct b (k + 1) - X.1.arrival, waiting := (c7ct b (k + 1) - X.1.arrival) - X.1.burst } : SProc) =
      c7done b k := rfl
  rw [hYdone]
  have haOfle : aOf b s.time ≤ aOf b (c7ct b (k + 1)) := aOf_mono b (le_of_lt htlt)
  have harrk1 : (b.getD k sDflt).arrival ≤ c7ct b (k + 1) := le_trans harrk (le_of_lt htlt)
  have hka3 : k + 1 ≤ aOf b (c7ct b (k + 1)) := (arr_iff_lt_aOf hB _ hkn).1 harrk1
  refine ⟨⟨?_, hkn, Or.inl rfl, ?_, ?_, ?_, hka3, ?_, ?_, ?_, ?_, ?_⟩, rfl⟩
  · show (((scanFrom c2 0 ps2).2).set k (c7done b k, true)).length = b.length
    rw [List.length_set, hlen3]
  · intro i hik1
    show (((scanFrom c2 0 ps2).2).set k (c7done b k, true)).getD i (sDflt, true) = _
    rcases Nat.lt_succ_iff_lt_or_eq.1 hik1 with hik | hik
    · have hine : i ≠ k := Nat.ne_of_lt hik
      rw [getD_set_ne _ _ _ _ _ hine, scan_getD, hget2ne i hine, hI.hdone i hik]
      show (c7done b i, true || _) = _
      rw [Bool.true_or]
    · rw [hik]
      exact getD_set_self _ _ _ _ (by rw [hlen3]; exact hkn)
  · intro i hki1 hin
    have hine : i ≠ k := by omega
    show (((scanFrom c2 0 ps2).2).set k (c7done b k, true)).getD i (sDflt, true) = _
    rw [getD_set_ne _ _ _ _ _ hine, scan_getD, hget2ne i hine,
      hI.hpend i (by omega) hin]
    show (b.getD i sDflt,
        decide ((b.getD i sDflt).arrival ≤ s.time) ||
          (decide (s.time < (b.getD i sDflt).arrival) &&
           decide ((b.getD i sDflt).arrival ≤ c7ct b (k + 1)))) = _
    by_cases h : (b.getD i sDflt).arrival ≤ s.time
    · rw [decide_eq_true h, decide_eq_true (le_trans h (le_of_lt htlt)), Bool.true_or]
    · rw [decide_eq_false h, Bool.false_or, decide_eq_true (not_le.1 h), Bool.true_and]
  · intro i hik1
    rcases Nat.lt_succ_iff_lt_or_eq.1 hik1 with hik | hik
    · exact le_trans (hI.harr i hik) (le_of_lt htlt)
    · rw [hik]; exact harrk1
  · show List.range' (k + 1) (aOf b s.time - (k + 1)) ++ (scanFrom c2 0 ps2).1 = _
    rw [scanFrom_fst_zero]
    have hfc : ∀ j ∈ List.range ps2.length,
        (!(ps2.getD j (sDflt, true)).2 && c2 (ps2.getD j (sDflt, true)).1) =
        (decide (aOf b s.time ≤ j) && decide (j < aOf b (c7ct b (k + 1)))) := by
      intro j hj
      have hjn : j < b.length := by rw [← hlen2]; exact List.mem_range.1 hj
      by_cases hjk : j = k
      · rw [hjk, hget2self]
        show (!true && _) = _
        rw [decide_eq_false (Nat.not_le.2 hka2)]
        simp only [Bool.not_true, Bool.false_and]
      · rw [hget2ne j hjk]
        by_cases hjlt : j < k
        · rw [hI.hdone j hjlt]
          show (!true && _) = _
          have hjaT : j < aOf b s.time := lt_of_lt_of_le hjlt (le_of_lt hka2)
          rw [decide_eq_false (Nat.not_le.2 hjaT)]
          simp only [Bool.not_true, Bool.false_and, Bool.false_and]
        · have hkj : k ≤ j := Nat.not_lt.1 hjlt
          rw [hI.hpend j hkj hjn, hc2]
          show (!decide ((b.getD j sDflt).arrival ≤ s.time) &&
              (decide (s.time < (b.getD j sDflt).arrival) &&
               decide ((b.getD j sDflt).arrival ≤ c7ct b (k + 1)))) = _
          by_cases h : (b.getD j sDflt).arrival ≤ s.time
          · rw [decide_eq_true h,
              decide_eq_false (Nat.not_le.2 ((arr_iff_lt_aOf hB s.time hjn).1 h))]
            simp only [Bool.not_true, Bool.false_and]
          · have haj : aOf b s.time ≤ j :=
              Nat.not_lt.1 (fun hc => h ((arr_iff_lt_aOf hB s.time hjn).2 hc))
            rw [decide_eq_false h, decide_eq_true (not_le.1 h), decide_eq_true haj]
            simp only [Bool.not_false, Bool.true_and]
            exact decide_eq_decide.2 (arr_iff_lt_aOf hB (c7ct b (k + 1)) hjn)
      -- end hfc
    rw [List.filter_congr hfc, hlen2,
      filter_range_interval b.length (aOf b s.time) (aOf b (c7ct b (k + 1)))
        haOfle (aOf_le_length _ _)]
    have happ := List.range'_append (k + 1) (aOf b s.time - (k + 1))
      (aOf b (c7ct b (k + 1)) - aOf b s.time) 1
    simp only [Nat.one_mul] at happ
    have h1 : k + 1 + (aOf b s.time - (k + 1)) = aOf b s.time := by omega
    rw [h1] at happ
    rw [happ]
    congr 1
    omega
  · intro h
    show c7ct b (k + 1) = c7start b (k + 1)
    have harr1 : (b.getD (k + 1) sDflt).arrival ≤ c7ct b (k + 1) :=
      (arr_iff_lt_aOf hB _ (lt_of_lt_of_le h (aOf_le_length _ _))).2 h
    exact (max_eq_left harr1).symm
  · intro _
    exact ⟨le_refl _, fun _ => le_max_left _ _⟩
  · show s.gantt ++ [((b.getD k sDflt).pid, s.time, c7ct b (k + 1))] = _
    rw [hI.hgantt, htime, List.range_succ, List.map_append]
    rfl
  · show s.completed + 1 = k + 1
    rw [hI.hcompleted]

/-- One iteration of the round_robin loop either idles one time unit
(no arrived work pending) or completes the next process on the FCFS
schedule. -/
theorem c7_step {b : List SProc} {q : Int} (hB : C7Base b q)
    {k : Nat} {T : Int} {s : RRState} (hI : C7Inv b k T s) (hkn : k < b.length) :
    (C7Inv b k s.time (rrStep q s) ∧
      (rrStep q s).time = s.time + 1 ∧ s.time + 1 ≤ c7start b k) ∨
    (C7Inv b (k + 1) (c7ct b (k + 1)) (rrStep q s) ∧
      (rrStep q s).time = c7ct b (k + 1) ∧ s.time ≤ c7ct b (k + 1)) := by
  have hI1 := c7_scan hB hI
  unfold rrStep
  dsimp only
  by_cases hq0 : aOf b s.time ≤ k
  · have hz : aOf b s.time - k = 0 := by omega
    have hq' : s.queue ++ (scanFrom (fun pr => decide (pr.arrival ≤ s.time)) 0 s.ps).1 = [] := by
      have h := hI1.hqueue
      rw [hz] at h
      exact h
    rw [hq']
    dsimp only
    left
    have harrk : ¬(b.getD k sDflt).arrival ≤ s.time := by
      intro hc
      exact absurd ((arr_iff_lt_aOf hB s.time hkn).1 hc) (Nat.not_lt.2 hq0)
    have harr' : s.time < (b.getD k sDflt).arrival := not_le.1 harrk
    have hst : s.time + 1 ≤ c7start b k :=
      le_trans (by omega) (le_max_right (c7ct b k) ((b.getD k sDflt).arrival))
    refine ⟨⟨hI1.hlen, hI1.hk, Or.inr (by dsimp only; omega), hI1.hdone, hI1.hpend,
      hI1.harr, hI1.hka, ?_, ?_, ?_, hI1.hgantt, hI1.hcompleted⟩, rfl, hst⟩
    · show ([] : List Nat) = List.range' k (aOf b s.time - k)
      rw [hz]
      exact List.range'_zero.symm
    · intro h
      exact absurd h (Nat.not_lt.2 hq0)
    · intro _
      obtain ⟨h1, _⟩ := hI1.htime2 hq0
      have h1' : c7ct b k ≤ s.time := h1
      exact ⟨by dsimp only; omega, fun _ => hst⟩
  · have hq0' : k < aOf b s.time := Nat.not_le.1 hq0
    have hq' : s.queue ++ (scanFrom (fun pr => decide (pr.arrival ≤ s.time)) 0 s.ps).1 =
        k :: List.range' (k + 1) (aOf b s.time - (k + 1)) := by
      have h := hI1.hqueue
      have hsp : aOf b s.time - k = (aOf b s.time - (k + 1)) + 1 := by omega
      rw [hsp, List.range'_succ] at h
      exact h
    rw [hq']
    dsimp only
    rw [← hq']
    right
    have hI1' : C7Inv b k
        ({ s with ps := (scanFrom (fun pr => decide (pr.arrival ≤ s.time)) 0 s.ps).2
                  queue := s.queue ++
                    (scanFrom (fun pr => decide (pr.arrival ≤ s.time)) 0 s.ps).1 } : RRState).time
        { s with ps := (scanFrom (fun pr => decide (pr.arrival ≤ s.time)) 0 s.ps).2
                 queue := s.queue ++
                   (scanFrom (fun pr => decide (pr.arrival ≤ s.time)) 0 s.ps).1 } := hI1
    have hq0'' : k < aOf b
        ({ s with ps := (scanFrom (fun pr => decide (pr.arrival ≤ s.time)) 0 s.ps).2
                  queue := s.queue ++
                    (scanFrom (fun pr => decide (pr.arrival ≤ s.time)) 0 s.ps).1 } : RRState).time :=
      hq0'
    have hex := c7_exec hB hI1' hq0''
    have hts : s.time = c7start b k := hI1.htime1 hq0'
    exact ⟨hex.1, hex.2, by
      rw [hts]
      exact le_of_lt (c7start_lt_succ hB hkn)⟩

/-- The round_robin loop terminates within `(n - k) + (final clock - now)`
iterations and ends in the all-completed FCFS state. -/
theorem c7_loop {b : List SProc} {q : Int} (hB : C7Base b q) :
    ∀ (fuel : Nat) (k : Nat) (T : Int) (s : RRState), C7Inv b k T s →
      (b.length - k) + (c7ct b b.length - s.time).toNat ≤ fuel →
      ∃ s' T', rrLoop q b.length fuel s = some s' ∧ C7Inv b b.length T' s' := by
  intro fuel
  induction fuel with
  | zero =>
    intro k T s hI hm
    have hkn : k = b.length := by
      have := hI.hk
      omega
    refine ⟨s, T, ?_, by rw [← hkn]; exact hI⟩
    show rrLoop q b.length 0 s = some s
    simp only [rrLoop]
    rw [if_neg (by rw [hI.hcompleted, hkn]; exact lt_irrefl _)]
  | succ fuel ih =>
    intro k T s hI hm
    by_cases hkn : k < b.length
    · have hcond : s.completed < b.length := by rw [hI.hcompleted]; exact hkn
      have hun : rrLoop q b.length (fuel + 1) s = rrLoop q b.length fuel (rrStep q s) := by
        simp only [rrLoop]
        rw [if_pos hcond]
      rw [hun]
      rcases c7_step hB hI hkn with ⟨hI2, ht2, hb2⟩ | ⟨hI2, ht2, hb2⟩
      · apply ih k s.time (rrStep q s) hI2
        rw [ht2]
        have h2 : c7start b k < c7ct b (k + 1) := c7start_lt_succ hB hkn
        have h3 : c7ct b (k + 1) ≤ c7ct b b.length := c7ct_mono hB hkn (le_refl _)
        omega
      · apply ih (k + 1) (c7ct b (k + 1)) (rrStep q s) hI2
        rw [ht2]
        have h3 : c7ct b (k + 1) ≤ c7ct b b.length := c7ct_mono hB hkn (le_refl _)
        omega
    · refine ⟨s, T, ?_, ?_⟩
      · show rrLoop q b.length (fuel + 1) s = some s
        simp only [rrLoop]
        rw [if_neg (by rw [hI.hcompleted]; exact hkn)]
      · have hkeq : k = b.length := by
          have := hI.hk
          omega
        rw [← hkeq]
        exact hI

theorem getD_map_lt {α β : Type} (f : α → β) (l : List α) {i : Nat}
    (h : i < l.length) (d : α) (d' : β) : (l.map f).getD i d' = f (l.getD i d) := by
  rw [List.getD_eq_getElem?_getD, List.getD_eq_getElem?_getD, List.getElem?_map,
    List.getElem?_eq_getElem h]
  rfl

/-- The initial round_robin state satisfies the invariant at `k = 0` with
scan threshold `-1` (no scan has run yet; arrivals are nonnegative). -/
theorem c7_init {q : Int} (processes : List SProc)
    (hB : C7Base (List.insertionSort (fun a b : SProc => a.arrival ≤ b.arrival) processes) q) :
    C7Inv (List.insertionSort (fun a b : SProc => a.arrival ≤ b.arrival) processes) 0 (-1)
      (rrInit processes) := by
  set b := List.insertionSort (fun a b : SProc => a.arrival ≤ b.arrival) processes with hb
  have haOf : aOf b (-1) = 0 := by
    rw [aOf]
    apply List.countP_eq_zero.2
    intro p hp
    obtain ⟨i, hi, he⟩ := List.mem_iff_getElem.1 hp
    have h0 : 0 ≤ (b.getD i sDflt).arrival := (hB.hfresh i hi).2.2
    rw [List.getD_eq_getElem?_getD, List.getElem?_eq_getElem hi] at h0
    simp only [Option.getD_some] at h0
    rw [he] at h0
    simp only [decide_eq_true_eq]
    omega
  refine ⟨?_, Nat.zero_le _, Or.inr (by dsimp only [rrInit]; norm_num), ?_, ?_, ?_,
    Nat.zero_le _, ?_, ?_, ?_, rfl, rfl⟩
  · show ((List.insertionSort _ processes).map (fun p => (p, false))).length = b.length
    rw [List.length_map]
  · intro i hi
    exact absurd hi (Nat.not_lt_zero i)
  · intro i _ hin
    show ((List.insertionSort _ processes).map (fun p => (p, false))).getD i (sDflt, true) = _
    rw [getD_map_lt (fun p => (p, false)) _ hin sDflt (sDflt, true)]
    have h0 : 0 ≤ (b.getD i sDflt).arrival := (hB.hfresh i hin).2.2
    rw [decide_eq_false (by omega)]
  · intro i hi
    exact absurd hi (Nat.not_lt_zero i)
  · show ([] : List Nat) = List.range' 0 (aOf b (-1) - 0)
    rw [haOf]
    exact List.range'_zero.symm
  · intro h
    rw [haOf] at h
    exact absurd h (lt_irrefl 0)
  · intro _
    refine ⟨le_refl 0, fun _ => le_max_left 0 _⟩

theorem fcfs_gantt_eq (ps : List FProcIn) :
    (fcfs_scheduling ps).gantt_chart =
      ((fcfsLoop 0 (List.insertionSort
        (fun a b : FProcIn => a.arrival_time ≤ b.arrival_time) ps)).2).map
          (fun p => (p.pid, p.start_time, p.completion_time)) := rfl

/-- `orderedInsert` commutes with forgetting an rr.py process to an FCFS
input dict (the sort keys agree). -/
theorem orderedInsert_toF (x : SProc) : ∀ l : List SProc,
    List.orderedInsert (fun a b : FProcIn => a.arrival_time ≤ b.arrival_time)
        (sprocToF x) (l.map sprocToF) =
      (List.orderedInsert (fun a b : SProc => a.arrival ≤ b.arrival) x l).map sprocToF
  | [] => rfl
  | y :: ys => by
    simp only [List.map_cons, List.orderedInsert]
    by_cases h : x.arrival ≤ y.arrival
    · rw [if_pos (show (sprocToF x).arrival_time ≤ (sprocToF y).arrival_time from h),
        if_pos h]
      simp [List.map_cons]
    · rw [if_neg (show ¬(sprocToF x).arrival_time ≤ (sprocToF y).arrival_time from h),
        if_neg h, List.map_cons, ← orderedInsert_toF x ys]

/-- `insertionSort` commutes with forgetting to an FCFS input dict. -/
theorem insertionSort_toF : ∀ l : List SProc,
    List.insertionSort (fun a b : FProcIn => a.arrival_time ≤ b.arrival_time)
        (l.map sprocToF) =
      (List.insertionSort (fun a b : SProc => a.arrival ≤ b.arrival) l).map sprocToF
  | [] => rfl
  | x :: xs => by
    simp only [List.map_cons, List.insertionSort]
    rw [insertionSort_toF xs, orderedInsert_toF]

/-- The FCFS loop on the (forgotten) sorted list computes exactly the
`c7ct`/`c7fproc` schedule. -/
theorem fcfsLoop_c7 (b : List SProc) : ∀ (m k : Nat), k + m = b.length →
    fcfsLoop (c7ct b k) ((b.drop k).map sprocToF) =
      (c7ct b b.length, (List.range' k m).map (c7fproc b))
  | 0, k => by
    intro hk
    have hdrop : b.drop k = [] := List.drop_eq_nil_of_le (by omega)
    rw [hdrop]
    show (c7ct b k, []) = _
    rw [show k = b.length from by omega]
    simp
  | m + 1, k => by
    intro hk
    have hkl : k < b.length := by omega
    have hdrop : b.drop k = b.getD k sDflt :: b.drop (k + 1) := by
      rw [List.drop_eq_getElem_cons hkl]
      congr 1
      rw [List.getD_eq_getElem?_getD, List.getElem?_eq_getElem hkl]
      rfl
    rw [hdrop, List.map_cons]
    show fcfsLoop (c7ct b k) (sprocToF (b.getD k sDflt) :: (b.drop (k + 1)).map sprocToF) = _
    simp only [fcfsLoop, sprocToF]
    rw [c7_if_max (c7ct b k) ((b.getD k sDflt).arrival)]
    have hct : max (c7ct b k) ((b.getD k sDflt).arrival) + (b.getD k sDflt).burst =
        c7ct b (k + 1) := rfl
    rw [hct, fcfsLoop_c7 b m (k + 1) (by omega)]
    rw [List.range'_succ, List.map_cons]
    rfl

/-- C7 (amended): on fresh processes with positive bursts and nonnegative
arrivals, rr.py's `round_robin` with a time quantum at least every
`burst` produces exactly the Gantt chart of `fcfs_scheduling` on the same
input, and every completed process carries the FCFS per-process metrics
(completion, turnaround, waiting). -/
theorem C7_amended_rr_quantum_ge_max_burst_is_fcfs
    (processes : List SProc) (q : Int) (fuel : Nat)
    (hvalid : ∀ p ∈ processes, p.remaining = p.burst ∧ 1 ≤ p.burst ∧ 0 ≤ p.arrival)
    (hqmax : ∀ p ∈ processes, p.burst ≤ q)
    (hfuel : processes.length +
      (c7ct (List.insertionSort (fun a b : SProc => a.arrival ≤ b.arrival) processes)
        processes.length).toNat ≤ fuel) :
    ∃ final, round_robin fuel processes q =
        some ((fcfs_scheduling (processes.map sprocToF)).gantt_chart, final) ∧
      final.map (fun p => (p.pid, p.completion, p.turnaround, p.waiting)) =
        (fcfs_scheduling (processes.map sprocToF)).processes.map
          (fun p => (p.pid, some p.completion_time, p.turnaround_time, p.waiting_time)) := by
  set b := List.insertionSort (fun a b : SProc => a.arrival ≤ b.arrival) processes with hb
  have hperm : b.Perm processes := List.perm_insertionSort _ _
  have hblen : b.length = processes.length := hperm.length_eq
  haveI hTot : IsTotal SProc (fun a c : SProc => a.arrival ≤ c.arrival) :=
    ⟨fun a c => le_total a.arrival c.arrival⟩
  haveI hTrans : IsTrans SProc (fun a c : SProc => a.arrival ≤ c.arrival) :=
    ⟨fun a c d h1 h2 => le_trans h1 h2⟩
  have hsorted : b.Pairwise (fun a c : SProc => a.arrival ≤ c.arrival) :=
    List.sorted_insertionSort _ processes
  have hmem : ∀ i, i < b.length → b.getD i sDflt ∈ processes := by
    intro i hi
    apply hperm.mem_iff.1
    rw [List.getD_eq_getElem?_getD, List.getElem?_eq_getElem hi]
    exact List.getElem_mem hi
  have hgetmono := List.pairwise_iff_getElem.1 hsorted
  have hB : C7Base b q := by
    refine ⟨?_, ?_, ?_⟩
    · intro i j hij hj
      have hi : i < b.length := lt_trans hij hj
      have h := hgetmono i j hi hj hij
      rw [List.getD_eq_getElem?_getD, List.getElem?_eq_getElem hi,
        List.getD_eq_getElem?_getD, List.getElem?_eq_getElem hj]
      exact h
    · intro i hi
      exact hvalid _ (hmem i hi)
    · intro i hi
      exact hqmax _ (hmem i hi)
  have hInit : C7Inv b 0 (-1) (rrInit processes) := c7_init processes hB
  have hmeas : (b.length - 0) + (c7ct b b.length - (rrInit processes).time).toNat ≤ fuel := by
    have hf2 : b.length + (c7ct b b.length).toNat ≤ fuel := by
      rw [hblen]
      exact hfuel
    show (b.length - 0) + (c7ct b b.length - (0 : Int)).toNat ≤ fuel
    omega
  obtain ⟨s', T', hrun, hF⟩ := c7_loop hB fuel 0 (-1) (rrInit processes) hInit hmeas
  have hsortF : List.insertionSort (fun a c : FProcIn => a.arrival_time ≤ c.arrival_time)
      (processes.map sprocToF) = b.map sprocToF := by
    rw [hb]
    exact insertionSort_toF processes
  have hflc : fcfsLoop 0 (b.map sprocToF) =
      (c7ct b b.length, (List.range' 0 b.length).map (c7fproc b)) := by
    have h := fcfsLoop_c7 b b.length 0 (by omega)
    rw [List.drop_zero] at h
    exact h
  have hprocsF : (fcfs_scheduling (processes.map sprocToF)).processes =
      (List.range' 0 b.length).map (c7fproc b) := by
    rw [fcfs_processes_eq, hsortF, hflc]
  have hganttF : (fcfs_scheduling (processes.map sprocToF)).gantt_chart =
      (List.range' 0 b.length).map
        (fun i => ((b.getD i sDflt).pid, c7start b i, c7ct b (i + 1))) := by
    rw [fcfs_gantt_eq, hsortF, hflc]
    show ((List.range' 0 b.length).map (c7fproc b)).map _ = _
    rw [List.map_map]
    apply List.map_congr_left
    intro i _
    rfl
  have hps : s'.ps = (List.range' 0 b.length).map (fun i => (c7done b i, true)) := by
    apply List.ext_getElem
    · rw [hF.hlen, List.length_map, List.length_range']
    · intro i hi1 hi2
      have hib : i < b.length := by rw [← hF.hlen]; exact hi1
      have h1 : s'.ps.getD i (sDflt, true) = (c7done b i, true) := hF.hdone i hib
      rw [List.getD_eq_getElem?_getD, List.getElem?_eq_getElem hi1] at h1
      simp only [Option.getD_some] at h1
      rw [h1, List.getElem_map, List.getElem_range']
      simp
  refine ⟨s'.ps.map Prod.fst, ?_, ?_⟩
  · show round_robin fuel processes q = _
    unfold round_robin
    rw [← hblen, hrun, Option.map_some']
    congr 1
    show (s'.gantt, s'.ps.map Prod.fst) = _
    rw [hF.hgantt, hganttF, List.range_eq_range']
  · rw [hps, hprocsF, List.map_map, List.map_map, List.map_map]
    apply List.map_congr_left
    intro i _
    have hcw : c7ct b (i + 1) - (b.getD i sDflt).arrival - (b.getD i sDflt).burst =
        c7start b i - (b.getD i sDflt).arrival := by
      have h : c7ct b (i + 1) = c7start b i + (b.getD i sDflt).burst := rfl
      omega
    dsimp only [c7done, c7fproc, Function.comp]
    rw [hcw]

/-- Witness for the amended C7 theorem: the three example processes
`P1(0,8), P2(1,4), P3(2,2)` with quantum 8 (the maximal burst) and fuel
20. -/
theorem C7_amended_witness :
    ((∀ p ∈ [mkSProc "P1" 0 8, mkSProc "P2" 1 4, mkSProc "P3" 2 2],
        p.remaining = p.burst ∧ 1 ≤ p.burst ∧ 0 ≤ p.arrival) ∧
     (∀ p ∈ [mkSProc "P1" 0 8, mkSProc "P2" 1 4, mkSProc "P3" 2 2], p.burst ≤ (8 : Int)) ∧
     ([mkSProc "P1" 0 8, mkSProc "P2" 1 4, mkSProc "P3" 2 2].length +
       (c7ct (List.insertionSort (fun a b : SProc => a.arrival ≤ b.arrival)
           [mkSProc "P1" 0 8, mkSProc "P2" 1 4, mkSProc "P3" 2 2])
         [mkSProc "P1" 0 8, mkSProc "P2" 1 4, mkSProc "P3" 2 2].length).toNat ≤ 20)) ∧
    (∃ final,
      round_robin 20 [mkSProc "P1" 0 8, mkSProc "P2" 1 4, mkSProc "P3" 2 2] 8 =
        some ((fcfs_scheduling
          ([mkSProc "P1" 0 8, mkSProc "P2" 1 4, mkSProc "P3" 2 2].map sprocToF)).gantt_chart,
          final) ∧
      final.map (fun p => (p.pid, p.completion, p.turnaround, p.waiting)) =
        (fcfs_scheduling
          ([mkSProc "P1" 0 8, mkSProc "P2" 1 4, mkSProc "P3" 2 2].map sprocToF)).processes.map
          (fun p => (p.pid, some p.completion_time, p.turnaround_time, p.waiting_time))) :=
  ⟨⟨by decide, by decide, by decide⟩,
    C7_amended_rr_quantum_ge_max_burst_is_fcfs
      [mkSProc "P1" 0 8, mkSProc "P2" 1 4, mkSProc "P3" 2 2] 8 20
      (by decide) (by decide) (by decide)⟩

/-- Forget a main.py process object down to an fcfs_scheduling input dict. -/
def mprocToF (p : MProc) : FProcIn :=
  { pid := p.pid, arrival_time := p.arrival_time, burst_time := p.burst_time }

/-- A single valid process arriving at time 5 with burst 2: quantum 5
dominates every burst. -/
def c7badIn : List MProc := [mkMProc "P1" 5 2 0]

/-- C7 counterexample for src/main.py's `logic_rr`: with quantum 5 ≥ the
maximal burst on the valid input `P1(arrival 5, burst 2)`, `logic_rr`
(which seeds its queue with the first sorted process at clock 0) runs
`P1` during `[0,2)` and records completion 2, while FCFS runs it during
`[5,7)` and records completion 7 — different Gantt segments and different
per-process metrics. -/
theorem C7_counterexample_logic_rr_not_fcfs :
    (∀ p ∈ c7badIn, p.remaining_time = p.burst_time ∧ 1 ≤ p.burst_time ∧
      0 ≤ p.arrival_time ∧ p.burst_time ≤ 5) ∧
    (logicRR 10 c7badIn 5).map (fun r => r.2) = some [("P1", 0, 2)] ∧
    (logicRR 10 c7badIn 5).map (fun r => r.1.map (fun p => (p.pid, p.completion_time))) =
      some [("P1", 2)] ∧
    (fcfs_scheduling (c7badIn.map mprocToF)).gantt_chart = [("P1", 5, 7)] ∧
    (fcfs_scheduling (c7badIn.map mprocToF)).processes.map
      (fun p => (p.pid, p.completion_time)) = [("P1", 7)] ∧
    (some [("P1", (0 : Int), (2 : Int))] ≠ some [("P1", (5 : Int), (7 : Int))]) :=
  ⟨by decide, by decide, by decide, by decide, by decide, by decide⟩
